import Mathlib

/-!
# Verification of the BrainBridge tree-walking backup archiver

Shallow embedding of `src/public/run_lib/mini_tools/files_convg.py`
(the archive codec) and `src/public/run_lib/files_manager/manager.py`
(the tree walker `return_full_free`), with theorems settling the frozen
claims about the subsystem.

Modelling conventions:
* Python `bytes` are `List Nat` with every element `< 256`.
* File-system effects (`os.listdir`, `os.path.isdir`, `os.path.isfile`,
  `os.path.realpath` / `Path.resolve`, reading a file's bytes) are an
  explicit oracle structure; the walker and the codec are pure functions
  of that oracle.
* `hashlib.sha256(...).hexdigest()` is a library call, not code of this
  repository; it is abstracted as a function parameter
  `sha : List Nat → String` wherever a digest of file contents is taken.
* Archive files are modelled as the list of their lines (each written
  line of the Python code is one list element, without the trailing
  newline).
-/

namespace BrainBridge

/-- The standard base64 alphabet used by Python `base64.b64encode`. -/
def b64Alphabet : List Char :=
  "ABCDEFGHIJKLMNOPQRSTUVWXYZabcdefghijklmnopqrstuvwxyz0123456789+/".toList

/-- Character encoding a 6-bit value (0..63). -/
def sextetChar (n : Nat) : Char := b64Alphabet.getD n 'A'

/-- Index of a character in the base64 alphabet; `none` when the character
is not in the alphabet (in particular for the padding character). -/
def charSextet (c : Char) : Option Nat :=
  let i := b64Alphabet.indexOf c
  if i < 64 then some i else none

/-- `base64.b64encode` on a byte list: groups of 3 bytes become 4
characters, a final partial group is padded with the padding character. -/
def b64EncodeChars : List Nat → List Char
  | b0 :: b1 :: b2 :: rest =>
    sextetChar (b0 / 4) :: sextetChar (b0 % 4 * 16 + b1 / 16) ::
      sextetChar (b1 % 16 * 4 + b2 / 64) :: sextetChar (b2 % 64) :: b64EncodeChars rest
  | [b0, b1] =>
    [sextetChar (b0 / 4), sextetChar (b0 % 4 * 16 + b1 / 16), sextetChar (b1 % 16 * 4), '=']
  | [b0] =>
    [sextetChar (b0 / 4), sextetChar (b0 % 4 * 16), '=', '=']
  | [] => []

/-- `base64.b64decode` on well-formed input: 4 characters at a time,
honouring the padded final group; `none` on input it cannot decode
(modelling the `binascii.Error` raised by the Python library). -/
def b64DecodeChars : List Char → Option (List Nat)
  | [] => some []
  | c0 :: c1 :: c2 :: c3 :: rest =>
    match charSextet c0, charSextet c1 with
    | some s0, some s1 =>
      if c2 = '=' ∧ c3 = '=' ∧ rest = [] then
        some [s0 * 4 + s1 / 16]
      else
        match charSextet c2 with
        | some s2 =>
          if c3 = '=' ∧ rest = [] then
            some [s0 * 4 + s1 / 16, s1 % 16 * 16 + s2 / 4]
          else
            match charSextet c3 with
            | some s3 =>
              (b64DecodeChars rest).map
                (fun tail => (s0 * 4 + s1 / 16) :: (s1 % 16 * 16 + s2 / 4) :: (s2 % 4 * 64 + s3) :: tail)
            | none => none
        | none => none
    | _, _ => none
  | _ => none

theorem charSextet_sextetChar_fin : ∀ n : Fin 64, charSextet (sextetChar n.val) = some n.val := by
  decide

theorem sextetChar_ne_pad_fin : ∀ n : Fin 64, sextetChar n.val ≠ '=' := by
  decide

theorem charSextet_sextetChar (n : Nat) (h : n < 64) :
    charSextet (sextetChar n) = some n :=
  charSextet_sextetChar_fin ⟨n, h⟩

theorem sextetChar_ne_pad (n : Nat) : sextetChar n ≠ '=' := by
  by_cases h : n < 64
  · exact sextetChar_ne_pad_fin ⟨n, h⟩
  · have hlen : b64Alphabet.length = 64 := by decide
    simp only [sextetChar, List.getD_eq_getElem?_getD]
    rw [List.getElem?_eq_none (by omega)]
    decide

/-- Decoding inverts encoding on genuine byte lists. -/
theorem b64_decode_encode : ∀ (bs : List Nat), (∀ b ∈ bs, b < 256) →
    b64DecodeChars (b64EncodeChars bs) = some bs
  | [], _ => rfl
  | [b0], h => by
    have hb0 : b0 < 256 := h b0 (by simp)
    have c0 := charSextet_sextetChar (b0 / 4) (by omega)
    have c1 := charSextet_sextetChar (b0 % 4 * 16) (by omega)
    have e0 : b0 / 4 * 4 + b0 % 4 * 16 / 16 = b0 := by omega
    simp [b64EncodeChars, b64DecodeChars, c0, c1, e0] <;> omega
  | [b0, b1], h => by
    have hb0 : b0 < 256 := h b0 (by simp)
    have hb1 : b1 < 256 := h b1 (by simp)
    have c0 := charSextet_sextetChar (b0 / 4) (by omega)
    have c1 := charSextet_sextetChar (b0 % 4 * 16 + b1 / 16) (by omega)
    have c2 := charSextet_sextetChar (b1 % 16 * 4) (by omega)
    have n2 := sextetChar_ne_pad (b1 % 16 * 4)
    have e0 : b0 / 4 * 4 + (b0 % 4 * 16 + b1 / 16) / 16 = b0 := by omega
    have e1 : (b0 % 4 * 16 + b1 / 16) % 16 * 16 + b1 % 16 * 4 / 4 = b1 := by omega
    simp [b64EncodeChars, b64DecodeChars, c0, c1, c2, n2, e0, e1] <;> omega
  | b0 :: b1 :: b2 :: rest, h => by
    have hb0 : b0 < 256 := h b0 (by simp)
    have hb1 : b1 < 256 := h b1 (by simp)
    have hb2 : b2 < 256 := h b2 (by simp)
    have ih := b64_decode_encode rest (fun b hb => h b (by simp [hb]))
    have c0 := charSextet_sextetChar (b0 / 4) (by omega)
    have c1 := charSextet_sextetChar (b0 % 4 * 16 + b1 / 16) (by omega)
    have c2 := charSextet_sextetChar (b1 % 16 * 4 + b2 / 64) (by omega)
    have c3 := charSextet_sextetChar (b2 % 64) (by omega)
    have n2 := sextetChar_ne_pad (b1 % 16 * 4 + b2 / 64)
    have n3 := sextetChar_ne_pad (b2 % 64)
    have e0 : b0 / 4 * 4 + (b0 % 4 * 16 + b1 / 16) / 16 = b0 := by omega
    have e1 : (b0 % 4 * 16 + b1 / 16) % 16 * 16 + (b1 % 16 * 4 + b2 / 64) / 4 = b1 := by omega
    have e2 : (b1 % 16 * 4 + b2 / 64) % 4 * 64 + b2 % 64 = b2 := by omega
    simp [b64EncodeChars, b64DecodeChars, c0, c1, c2, c3, n2, n3, ih, e0, e1, e2] <;> omega

/-- Encoding distributes over splits at 3-byte boundaries. -/
theorem b64EncodeChars_append : ∀ (a b : List Nat), a.length % 3 = 0 →
    b64EncodeChars (a ++ b) = b64EncodeChars a ++ b64EncodeChars b
  | [], _, _ => rfl
  | [_], _, h => by simp at h
  | [_, _], _, h => by simp at h
  | b0 :: b1 :: b2 :: rest, b, h => by
    have hr : rest.length % 3 = 0 := by
      simp only [List.length_cons] at h
      omega
    have ih := b64EncodeChars_append rest b hr
    simp [b64EncodeChars, ih]

/-- Padding characters never occur in the encoding of a 3-byte-aligned
byte list. -/
theorem b64EncodeChars_no_pad : ∀ (a : List Nat), a.length % 3 = 0 →
    '=' ∉ b64EncodeChars a
  | [], _ => by simp [b64EncodeChars]
  | [_], h => by simp at h
  | [_, _], h => by simp at h
  | b0 :: b1 :: b2 :: rest, h => by
    have hr : rest.length % 3 = 0 := by
      simp only [List.length_cons] at h
      omega
    have ih := b64EncodeChars_no_pad rest hr
    have m0 : ¬('=' = sextetChar (b0 / 4)) := fun hh => sextetChar_ne_pad _ hh.symm
    have m1 : ¬('=' = sextetChar (b0 % 4 * 16 + b1 / 16)) := fun hh => sextetChar_ne_pad _ hh.symm
    have m2 : ¬('=' = sextetChar (b1 % 16 * 4 + b2 / 64)) := fun hh => sextetChar_ne_pad _ hh.symm
    have m3 : ¬('=' = sextetChar (b2 % 64)) := fun hh => sextetChar_ne_pad _ hh.symm
    simp [b64EncodeChars, m0, m1, m2, m3, ih]

/-- Fuelled worker for `wrapLines` (fuel keeps the recursion structural
so the kernel can evaluate it; any fuel above the text length is
exact). -/
def wrapF (w : Nat) : Nat → List Char → List String
  | 0, _ => []
  | _ + 1, [] => []
  | fuel + 1, c :: rest =>
    String.mk (List.take w (c :: rest)) :: wrapF w fuel (List.drop (w - 1) rest)

theorem wrapF_fuel (w : Nat) : ∀ (f f' : Nat) (l : List Char), l.length < f → l.length < f' →
    wrapF w f l = wrapF w f' l
  | 0, _, l, h, _ => absurd h (by omega)
  | _ + 1, 0, l, _, h' => absurd h' (by omega)
  | _ + 1, _ + 1, [], _, _ => rfl
  | f + 1, f' + 1, c :: rest, h, h' => by
    simp only [List.length_cons] at h h'
    simp only [wrapF]
    rw [wrapF_fuel w f f' (List.drop (w - 1) rest)
      (by simp only [List.length_drop]; omega)
      (by simp only [List.length_drop]; omega)]

/-- The base64 line-wrapping loop of the source
(`for i in range(0, len(out), wrap): yield out[i : i + wrap]`):
slices of `w` characters.  Faithful to the Python loop for `w ≥ 1`
(the source always calls it with `wrap = 76`). -/
def wrapLines (w : Nat) (l : List Char) : List String := wrapF w (l.length + 1) l

theorem wrapLines_nil (w : Nat) : wrapLines w [] = [] := rfl

theorem wrapLines_cons (w : Nat) (c : Char) (rest : List Char) :
    wrapLines w (c :: rest)
      = String.mk (List.take w (c :: rest)) :: wrapLines w (List.drop (w - 1) rest) := by
  show wrapF w ((c :: rest).length + 1) (c :: rest) = _
  simp only [List.length_cons, wrapF]
  rw [wrapF_fuel w (rest.length + 1) ((List.drop (w - 1) rest).length + 1)
    (List.drop (w - 1) rest) (by simp only [List.length_drop]; omega) (by omega)]
  rfl

/-- Concatenating the wrapped lines recovers the wrapped text. -/
theorem wrapLines_join (w : Nat) (hw : 1 ≤ w) : ∀ (s : List Char),
    ((wrapLines w s).map String.data).flatten = s
  | [] => by rw [wrapLines_nil]; rfl
  | c :: rest => by
    have ih := wrapLines_join w hw (List.drop (w - 1) rest)
    obtain ⟨w', rfl⟩ : ∃ w', w = w' + 1 := ⟨w - 1, by omega⟩
    have ih' : (List.map String.data (wrapLines (w' + 1) (List.drop w' rest))).flatten
        = List.drop w' rest := by simpa using ih
    rw [wrapLines_cons]
    simp only [List.map_cons, List.flatten_cons, Nat.add_sub_cancel, ih']
    rw [List.take_succ_cons]
    simp [List.take_append_drop]
termination_by s => s.length
decreasing_by simp [List.length_drop]; omega

/-- Every wrapped line has at most `w` characters. -/
theorem wrapLines_length_le (w : Nat) : ∀ (s : List Char), ∀ l ∈ wrapLines w s, l.length ≤ w
  | [] => by rw [wrapLines_nil]; simp
  | c :: rest => by
    have ih := wrapLines_length_le w (List.drop (w - 1) rest)
    rw [wrapLines_cons]
    intro l hl
    rcases List.mem_cons.mp hl with h | h
    · subst h
      simpa [String.length] using List.length_take_le w (c :: rest)
    · exact ih l h
termination_by s => s.length
decreasing_by simp [List.length_drop]; omega

/-- Wrapping introduces no characters: a character absent from the text is
absent from every wrapped line. -/
theorem wrapLines_mem_chars (w : Nat) (ch : Char) : ∀ (s : List Char), ch ∉ s →
    ∀ l ∈ wrapLines w s, ch ∉ l.data
  | [] => by rw [wrapLines_nil]; simp
  | c :: rest => by
    have ih := wrapLines_mem_chars w ch (List.drop (w - 1) rest)
    rw [wrapLines_cons]
    intro hs l hl
    rcases List.mem_cons.mp hl with h | h
    · subst h
      exact fun hmem => hs (List.take_subset _ _ hmem)
    · exact ih (fun hmem => hs (List.mem_cons_self c rest |> fun _ => List.mem_cons_of_mem c (List.drop_subset _ _ hmem))) l h
termination_by s => s.length
decreasing_by simp [List.length_drop]; omega

/-- One iteration of the `for chunk in src` loop of `b64_encode_stream`:
append the chunk to the carry buffer; if at least one full 3-byte group is
available, emit its wrapped encoding and keep only the remainder. -/
def b64StreamStep (w : Nat) (st : List String × List Nat) (chunk : List Nat) :
    List String × List Nat :=
  let buf := st.2 ++ chunk
  let tk := buf.length / 3 * 3
  if tk = 0 then (st.1, buf)
  else (st.1 ++ wrapLines w (b64EncodeChars (buf.take tk)), buf.drop tk)

/-- `b64_encode_stream` of the source: stream the chunks through the carry
buffer, then flush the (possibly padded) remainder at the end. -/
def b64_encode_stream (src : List (List Nat)) (w : Nat) : List String :=
  let st := src.foldl (b64StreamStep w) ([], [])
  if st.2 = [] then st.1 else st.1 ++ wrapLines w (b64EncodeChars st.2)

/-- Taking the 3-aligned prefix distributes over an append whose left part
is already 3-aligned. -/
theorem take_aligned_append (A B : List Nat) (h3 : A.length % 3 = 0) :
    (A ++ B).take ((A ++ B).length / 3 * 3) = A ++ B.take (B.length / 3 * 3) := by
  have h : (A ++ B).length / 3 * 3 = A.length + B.length / 3 * 3 := by
    simp only [List.length_append]
    omega
  rw [h, List.take_append]

/-- Dropping the 3-aligned prefix skips a 3-aligned left part entirely. -/
theorem drop_aligned_append (A B : List Nat) (h3 : A.length % 3 = 0) :
    (A ++ B).drop ((A ++ B).length / 3 * 3) = B.drop (B.length / 3 * 3) := by
  have h : (A ++ B).length / 3 * 3 = A.length + B.length / 3 * 3 := by
    simp only [List.length_append]
    omega
  rw [h, List.drop_append]

/-- Invariant of the chunk loop: starting from a carry buffer of at most
2 bytes, the loop emits exactly the wrapped encoding of the largest
3-byte-aligned prefix of `buffer ++ all chunks`, carries the unaligned
tail in the buffer, and every emitted line is short and padding-free. -/
theorem b64Stream_foldl (w : Nat) (hw : 1 ≤ w) : ∀ (src : List (List Nat)) (lines : List String) (buf : List Nat),
    buf.length < 3 →
    (((src.foldl (b64StreamStep w) (lines, buf)).1.map String.data).flatten
        = (lines.map String.data).flatten
          ++ b64EncodeChars ((buf ++ src.flatten).take ((buf ++ src.flatten).length / 3 * 3)))
    ∧ (src.foldl (b64StreamStep w) (lines, buf)).2
        = (buf ++ src.flatten).drop ((buf ++ src.flatten).length / 3 * 3)
    ∧ ∀ l ∈ (src.foldl (b64StreamStep w) (lines, buf)).1,
        l ∈ lines ∨ (l.length ≤ w ∧ '=' ∉ l.data)
  | [], lines, buf, hbuf => by
    have h0 : buf.length / 3 * 3 = 0 := by omega
    refine ⟨?_, ?_, fun l hl => Or.inl hl⟩
    · simp [h0, b64EncodeChars]
    · simp [h0]
  | c :: rest, lines, buf, hbuf => by
    rw [List.foldl_cons]
    rw [show b64StreamStep w (lines, buf) c
        = (let buf1 := buf ++ c
           let tk := buf1.length / 3 * 3
           if tk = 0 then (lines, buf1)
           else (lines ++ wrapLines w (b64EncodeChars (buf1.take tk)), buf1.drop tk)) from rfl]
    by_cases htk : (buf ++ c).length / 3 * 3 = 0
    · have hlt : (buf ++ c).length < 3 := by
        rcases Nat.lt_or_ge (buf ++ c).length 3 with h | h
        · exact h
        · exfalso; omega
      simp only [htk, reduceIte]
      have ih := b64Stream_foldl w hw rest lines (buf ++ c) hlt
      rw [List.flatten_cons, ← List.append_assoc]
      exact ih
    · simp only [htk, reduceIte]
      set buf1 := buf ++ c with hbuf1
      set tk := buf1.length / 3 * 3 with htkdef
      have htk_le : tk ≤ buf1.length := by omega
      have htk_mod : tk % 3 = 0 := by omega
      have hdrop_len : (buf1.drop tk).length < 3 := by
        simp only [List.length_drop]
        omega
      have ih := b64Stream_foldl w hw rest
        (lines ++ wrapLines w (b64EncodeChars (buf1.take tk))) (buf1.drop tk) hdrop_len
      obtain ⟨ih1, ih2, ih3⟩ := ih
      have hA_len : (buf1.take tk).length = tk := by
        simp [List.length_take]
        omega
      have hAmod : (buf1.take tk).length % 3 = 0 := by
        rw [hA_len]
        exact htk_mod
      -- the whole remaining input splits at the 3-aligned boundary tk
      have hsplit : (buf ++ (c :: rest).flatten) = buf1.take tk ++ (buf1.drop tk ++ rest.flatten) := by
        rw [List.flatten_cons, ← List.append_assoc, ← hbuf1, ← List.append_assoc,
          List.take_append_drop]
      refine ⟨?_, ?_, ?_⟩
      · rw [ih1, hsplit, take_aligned_append _ _ hAmod,
          b64EncodeChars_append _ _ hAmod]
        simp only [List.map_append, List.flatten_append]
        rw [wrapLines_join w hw]
        simp [List.append_assoc]
      · rw [ih2, hsplit, drop_aligned_append _ _ hAmod]
      · intro l hl
        rcases ih3 l hl with h | h
        · rcases List.mem_append.mp h with h2 | h2
          · exact Or.inl h2
          · refine Or.inr ⟨wrapLines_length_le w _ l h2, ?_⟩
            exact wrapLines_mem_chars w '=' _
              (b64EncodeChars_no_pad _ (by rw [hA_len]; exact htk_mod)) l h2
        · exact Or.inr h

/-- C2: for every stream of byte chunks, the streaming base64 encoder
emits encoded output only for input consumed in multiples of 3 raw bytes
(the lines emitted by the chunk loop concatenate to the encoding of the
3-byte-aligned prefix of the input), carries any 1-2 leftover bytes
forward in its buffer (the buffer after the loop is exactly the unaligned
tail), and pads only in the final flush (no padding character occurs in a
chunk-loop line); consequently for every input — in particular those whose
total size is not a multiple of 3 — concatenating and base64-decoding the
emitted lines yields exactly the original bytes, and no emitted line
exceeds 76 characters. -/
theorem claim_C2_stream_encoder (src : List (List Nat)) (hsrc : ∀ c ∈ src, ∀ b ∈ c, b < 256) :
    (((src.foldl (b64StreamStep 76) ([], [])).1.map String.data).flatten
        = b64EncodeChars (src.flatten.take (src.flatten.length / 3 * 3)))
    ∧ ((src.foldl (b64StreamStep 76) ([], [])).2
        = src.flatten.drop (src.flatten.length / 3 * 3))
    ∧ (∀ l ∈ (src.foldl (b64StreamStep 76) ([], [])).1, '=' ∉ l.data)
    ∧ (∀ l ∈ b64_encode_stream src 76, l.length ≤ 76)
    ∧ b64DecodeChars (((b64_encode_stream src 76).map String.data).flatten)
        = some src.flatten := by
  have hb : ∀ b ∈ src.flatten, b < 256 := by
    intro b hbm
    rcases List.mem_flatten.mp hbm with ⟨c, hc, hbc⟩
    exact hsrc c hc b hbc
  obtain ⟨h1, h2, h3⟩ := b64Stream_foldl 76 (by omega) src [] [] (by simp)
  simp only [List.map_nil, List.flatten_nil, List.nil_append] at h1 h2
  have htakemod : (src.flatten.take (src.flatten.length / 3 * 3)).length % 3 = 0 := by
    simp only [List.length_take]
    omega
  refine ⟨h1, h2, fun l hl => ?_, ?_, ?_⟩
  · rcases h3 l hl with h | h
    · simp at h
    · exact h.2
  · intro l hl
    rw [b64_encode_stream] at hl
    by_cases hempty : (src.foldl (b64StreamStep 76) ([], [])).2 = []
    · rw [if_pos hempty] at hl
      rcases h3 l hl with h | h
      · simp at h
      · exact h.1
    · rw [if_neg hempty] at hl
      rcases List.mem_append.mp hl with h | h
      · rcases h3 l h with h' | h'
        · simp at h'
        · exact h'.1
      · exact wrapLines_length_le 76 _ l h
  · rw [b64_encode_stream]
    by_cases hempty : (src.foldl (b64StreamStep 76) ([], [])).2 = []
    · rw [if_pos hempty]
      have hdrop : src.flatten.drop (src.flatten.length / 3 * 3) = [] := by
        rw [← h2]
        exact hempty
      have hlen := congrArg List.length hdrop
      simp only [List.length_drop, List.length_nil] at hlen
      have htake : src.flatten.take (src.flatten.length / 3 * 3) = src.flatten :=
        List.take_of_length_le (by omega)
      rw [h1, htake]
      exact b64_decode_encode _ hb
    · rw [if_neg hempty]
      simp only [List.map_append, List.flatten_append]
      rw [h1, h2, wrapLines_join 76 (by omega)]
      rw [← b64EncodeChars_append _ _ htakemod, List.take_append_drop]
      exact b64_decode_encode _ hb

/-- A concrete chunk stream: 7 bytes split unevenly across two chunks, so
the total size is not a multiple of 3 and the carry buffer is exercised. -/
def c2src : List (List Nat) := [[104, 105], [33, 10, 13, 7, 200]]

/-- Witness for C2 at a concrete 7-byte two-chunk input. -/
theorem claim_C2_stream_encoder_witness :
    (∀ c ∈ c2src, ∀ b ∈ c, b < 256)
    ∧ (b64DecodeChars (((b64_encode_stream c2src 76).map String.data).flatten)
        = some c2src.flatten) :=
  ⟨by decide, (claim_C2_stream_encoder c2src (by decide)).2.2.2.2⟩

/-- Result of `os.listdir`: the entry names, or the exception the call
raised (`PermissionError`, or another `OSError` carrying a message). -/
inductive ListdirResult where
  | ok (names : List String)
  | permErr
  | osErr (msg : String)
deriving DecidableEq

/-- File-system oracle: the `os` / `pathlib` primitives called by the
walker and the codec.  `realpath` models `os.path.realpath` (and
`Path.resolve`, which resolves symlinks the same way); `fileBytes` models
reading a file's bytes. -/
structure FS where
  listdir : String → ListdirResult
  isdir : String → Bool
  isfile : String → Bool
  realpath : String → String
  fileBytes : String → List Nat

/-- Python `s.startswith(pre)` (char-list based so that proofs can
evaluate it). -/
def strStarts (s pre : String) : Bool := pre.data.isPrefixOf s.data

/-- Python `s.endswith(suf)`. -/
def strEnds (s suf : String) : Bool := suf.data.isSuffixOf s.data

/-- `os.path.join(a, b)` on POSIX: an absolute `b` replaces `a`;
otherwise one separator is inserted unless `a` is empty or already ends
with one. -/
def osJoin (a b : String) : String :=
  if strStarts b "/" then b
  else if a = "" ∨ strEnds a "/" then a ++ b
  else a ++ "/" ++ b

/-- One element of the flat per-root list built by `return_full_free`:
a `{path: []}` directory marker, a plain file path, or one of the string
error markers appended by the exception handlers. -/
inductive PyTreeElem where
  | dirMarker (p : String)
  | filePath (p : String)
  | marker (s : String)
deriving DecidableEq

/-- The body of the `for item_name in listdir(current_directory)` loop of
`return_full_free`: classify one entry, appending its element to the
output accumulator and, for a directory whose real path is unvisited,
enqueueing it and marking its real path visited. -/
def processEntry (fs : FS) (dir : String)
    (acc : List PyTreeElem × List String × List String) (name : String) :
    List PyTreeElem × List String × List String :=
  let full := osJoin dir name
  let rp := fs.realpath full
  if fs.isdir full then
    if rp ∈ acc.2.2 then (acc.1 ++ [.dirMarker full], acc.2.1, acc.2.2)
    else (acc.1 ++ [.dirMarker full], acc.2.1 ++ [full], acc.2.2 ++ [rp])
  else if fs.isfile full then (acc.1 ++ [.filePath full], acc.2.1, acc.2.2)
  else acc

/-- Processing one directory popped from the queue: iterate `processEntry`
over the listing, or append the error marker the exception handler
produces. -/
def processDir (fs : FS) (dir : String) (visited : List String) :
    List PyTreeElem × List String × List String :=
  match fs.listdir dir with
  | .permErr => ([.marker ("_permission_denied_for:" ++ dir)], [], visited)
  | .osErr msg => ([.marker ("_error_accessing:" ++ dir ++ ":" ++ msg)], [], visited)
  | .ok names => names.foldl (processEntry fs dir) ([], [], visited)

/-- State of the breadth-first exploration loop of `return_full_free`:
the per-root output list, the `directories_to_explore` queue and the
`visited_real_paths` set, plus a ghost log (not in the source) of the
directories popped and processed, used only to state invariants. -/
structure WalkSt where
  out : List PyTreeElem
  queue : List String
  visited : List String
  explored : List String
deriving DecidableEq

/-- The `while directories_to_explore:` loop of `return_full_free`, with
explicit fuel making the recursion structural.  The source loop
terminates because every enqueued directory consumes a fresh real path;
correspondingly, for any fuel beyond the finite real-path universe the
queue is exhausted (theorem for C5). -/
def walkLoop (fs : FS) : Nat → WalkSt → WalkSt
  | 0, st => st
  | fuel + 1, st =>
    match st.queue with
    | [] => st
    | d :: rest =>
      let step := processDir fs d st.visited
      walkLoop fs fuel ⟨st.out ++ step.1, rest ++ step.2.1, step.2.2, st.explored ++ [d]⟩

/-- `return_full_free` restricted to a single base path: the body of the
`for base_path_str in base_paths:` loop (after `_valid_path` accepted the
root), producing the flat list stored in the result dict under that
root. -/
def return_full_free (fs : FS) (fuel : Nat) (base : String) : List PyTreeElem :=
  (walkLoop fs fuel ⟨[.dirMarker base], [base], [fs.realpath base], []⟩).out

/-- Invariant of the entry loop: the visited set equals the starting set
extended by exactly the real paths of the newly queued directories, which
are pairwise distinct and fresh. -/
theorem processEntry_fold_inv (fs : FS) (dir : String) (visited0 : List String) :
    ∀ (names : List String) (acc : List PyTreeElem × List String × List String),
    acc.2.2 = visited0 ++ acc.2.1.map fs.realpath →
    (acc.2.1.map fs.realpath).Nodup →
    (∀ x ∈ acc.2.1.map fs.realpath, x ∉ visited0) →
    ((names.foldl (processEntry fs dir) acc).2.2
        = visited0 ++ ((names.foldl (processEntry fs dir) acc).2.1.map fs.realpath))
    ∧ ((names.foldl (processEntry fs dir) acc).2.1.map fs.realpath).Nodup
    ∧ (∀ x ∈ (names.foldl (processEntry fs dir) acc).2.1.map fs.realpath, x ∉ visited0)
  | [], acc, h1, h2, h3 => ⟨h1, h2, h3⟩
  | name :: rest, acc, h1, h2, h3 => by
    rw [List.foldl_cons]
    by_cases hd : fs.isdir (osJoin dir name)
    · by_cases hv : fs.realpath (osJoin dir name) ∈ acc.2.2
      · have hstep : processEntry fs dir acc name
            = (acc.1 ++ [.dirMarker (osJoin dir name)], acc.2.1, acc.2.2) := by
          simp [processEntry, hd, hv]
        rw [hstep]
        exact processEntry_fold_inv fs dir visited0 rest _ h1 h2 h3
      · have hstep : processEntry fs dir acc name
            = (acc.1 ++ [.dirMarker (osJoin dir name)], acc.2.1 ++ [osJoin dir name],
               acc.2.2 ++ [fs.realpath (osJoin dir name)]) := by
          simp [processEntry, hd, hv]
        rw [hstep]
        rw [h1] at hv
        apply processEntry_fold_inv fs dir visited0 rest _ ?_ ?_ ?_
        · simp [h1, List.append_assoc]
        · simp only [List.map_append, List.map_cons, List.map_nil]
          refine List.Nodup.append h2 (by simp) ?_
          intro x hx hy
          simp at hy
          subst hy
          exact hv (List.mem_append.mpr (Or.inr hx))
        · intro x hx
          simp only [List.map_append, List.map_cons, List.map_nil] at hx
          rcases List.mem_append.mp hx with h | h
          · exact h3 x h
          · simp at h
            subst h
            exact fun hc => hv (List.mem_append.mpr (Or.inl hc))
    · by_cases hf : fs.isfile (osJoin dir name)
      · have hstep : processEntry fs dir acc name
            = (acc.1 ++ [.filePath (osJoin dir name)], acc.2.1, acc.2.2) := by
          simp [processEntry, hd, hf]
        rw [hstep]
        exact processEntry_fold_inv fs dir visited0 rest _ h1 h2 h3
      · have hstep : processEntry fs dir acc name = acc := by
          simp [processEntry, hd, hf]
        rw [hstep]
        exact processEntry_fold_inv fs dir visited0 rest _ h1 h2 h3

/-- Every directory the entry loop queues satisfies `isdir`. -/
theorem processEntry_fold_isdir (fs : FS) (dir : String) :
    ∀ (names : List String) (acc : List PyTreeElem × List String × List String),
    (∀ p ∈ acc.2.1, fs.isdir p = true) →
    ∀ p ∈ (names.foldl (processEntry fs dir) acc).2.1, fs.isdir p = true
  | [], acc, h => h
  | name :: rest, acc, h => by
    rw [List.foldl_cons]
    apply processEntry_fold_isdir fs dir rest
    intro p hp
    simp only [processEntry] at hp
    by_cases hd : fs.isdir (osJoin dir name)
    · by_cases hv : fs.realpath (osJoin dir name) ∈ acc.2.2
      · simp only [hd, if_true, hv, if_true] at hp
        exact h p hp
      · simp only [hd, if_true, hv, if_false] at hp
        rcases List.mem_append.mp hp with h2 | h2
        · exact h p h2
        · simp at h2
          subst h2
          exact hd
    · by_cases hf : fs.isfile (osJoin dir name)
      · simp only [hd, if_false, hf, if_true] at hp
        exact h p hp
      · simp only [hd, if_false, hf, if_false] at hp
        exact h p hp

/-- The entry loop only appends to the output accumulator. -/
theorem processEntry_fold_out_mono (fs : FS) (dir : String) :
    ∀ (names : List String) (acc : List PyTreeElem × List String × List String),
    ∀ x ∈ acc.1, x ∈ (names.foldl (processEntry fs dir) acc).1
  | [], _, _, hx => hx
  | name :: rest, acc, x, hx => by
    rw [List.foldl_cons]
    apply processEntry_fold_out_mono fs dir rest
    simp only [processEntry]
    by_cases hd : fs.isdir (osJoin dir name)
    · by_cases hv : fs.realpath (osJoin dir name) ∈ acc.2.2 <;>
        simp [hd, hv, List.mem_append, hx]
    · by_cases hf : fs.isfile (osJoin dir name) <;>
        simp [hd, hf, List.mem_append, hx]

/-- Every listed entry that is a directory gets its node emitted by the
entry loop — whether or not its real path was already visited. -/
theorem processEntry_fold_out_mem (fs : FS) (dir : String) :
    ∀ (names : List String) (acc : List PyTreeElem × List String × List String),
    ∀ nm ∈ names, fs.isdir (osJoin dir nm) = true →
    PyTreeElem.dirMarker (osJoin dir nm) ∈ (names.foldl (processEntry fs dir) acc).1
  | name :: rest, acc, nm, hnm, hd => by
    rw [List.foldl_cons]
    rcases List.mem_cons.mp hnm with h | h
    · subst h
      apply processEntry_fold_out_mono fs dir rest
      simp only [processEntry]
      by_cases hv : fs.realpath (osJoin dir nm) ∈ acc.2.2 <;>
        simp [hd, hv, List.mem_append]
    · exact processEntry_fold_out_mem fs dir rest _ nm h hd

/-- `processDir` wrapper of the visited-set invariant. -/
theorem processDir_visited (fs : FS) (dir : String) (visited : List String) :
    ((processDir fs dir visited).2.2
        = visited ++ ((processDir fs dir visited).2.1.map fs.realpath))
    ∧ ((processDir fs dir visited).2.1.map fs.realpath).Nodup
    ∧ (∀ x ∈ (processDir fs dir visited).2.1.map fs.realpath, x ∉ visited) := by
  unfold processDir
  cases h : fs.listdir dir with
  | ok names =>
    exact processEntry_fold_inv fs dir visited names ([], [], visited)
      (by simp) (by simp) (by simp)
  | permErr => simp
  | osErr m => simp

/-- `processDir` wrapper: newly queued entries are directories. -/
theorem processDir_isdir (fs : FS) (dir : String) (visited : List String) :
    ∀ p ∈ (processDir fs dir visited).2.1, fs.isdir p = true := by
  unfold processDir
  cases h : fs.listdir dir with
  | ok names =>
    exact processEntry_fold_isdir fs dir names ([], [], visited) (by simp)
  | permErr => simp
  | osErr m => simp

/-- Concrete file system for C4: sibling directories `/r/a` and `/r/b`
are two symlinks resolving to the same real target `/t`, which contains a
single file `f`. -/
def fsC4 : FS where
  listdir := fun p =>
    if p = "/r" then .ok ["a", "b"]
    else if p = "/r/a" ∨ p = "/r/b" then .ok ["f"]
    else .ok []
  isdir := fun p => p == "/r" || p == "/r/a" || p == "/r/b"
  isfile := fun p => p == "/r/a/f" || p == "/r/b/f"
  realpath := fun p =>
    if p = "/r/a" ∨ p = "/r/b" then "/t"
    else if p = "/r/a/f" ∨ p = "/r/b/f" then "/t/f"
    else p
  fileBytes := fun _ => []

/-- Concrete file system for C5: `/r/d/back` is a symlink cycle back to
the ancestor `/r`. -/
def fsC5 : FS where
  listdir := fun p =>
    if p = "/r" then .ok ["d"]
    else if p = "/r/d" ∨ p = "/r/d/back" then .ok ["back"]
    else .ok []
  isdir := fun p => p == "/r" || p == "/r/d" || p == "/r/d/back"
  isfile := fun _ => false
  realpath := fun p => if p = "/r/d/back" then "/r" else p
  fileBytes := fun _ => []

/-- Concrete file system for C6: `/r` lists `b` before `a` (`os.listdir`
order is arbitrary); `b` is a directory containing file `c`, `a` is a
file; no symlinks. -/
def fsC6 : FS where
  listdir := fun p =>
    if p = "/r" then .ok ["b", "a"]
    else if p = "/r/b" then .ok ["c"]
    else .ok []
  isdir := fun p => p == "/r" || p == "/r/b"
  isfile := fun p => p == "/r/a" || p == "/r/b/c"
  realpath := fun p => p
  fileBytes := fun _ => []

/-- A duplicate-free list contained in `U` is no longer than `U`. -/
theorem nodup_subset_length_le (l U : List String) (h1 : l.Nodup)
    (h2 : ∀ x ∈ l, x ∈ U) : l.length ≤ U.length := by
  have e1 : l.toFinset.card = l.length := List.toFinset_card_of_nodup h1
  have e2 : l.toFinset ⊆ U.toFinset := by
    intro x hx
    simp only [List.mem_toFinset] at hx ⊢
    exact h2 x hx
  have e3 := Finset.card_le_card e2
  have e4 : U.toFinset.card ≤ U.length := U.toFinset_card_le
  omega

/-- Loop invariant: the real paths of the processed and still-queued
directories stay pairwise distinct (and inside the visited set). -/
theorem walkLoop_explored_nodup (fs : FS) : ∀ (fuel : Nat) (st : WalkSt),
    ((st.explored ++ st.queue).map fs.realpath).Nodup →
    (∀ p ∈ st.explored ++ st.queue, fs.realpath p ∈ st.visited) →
    (((walkLoop fs fuel st).explored ++ (walkLoop fs fuel st).queue).map fs.realpath).Nodup
  | 0, st, h1, _ => h1
  | fuel + 1, st, h1, h2 => by
    rw [walkLoop]
    cases hq : st.queue with
    | nil => simpa [hq] using h1
    | cons d rest =>
      obtain ⟨pv1, pv2, pv3⟩ := processDir_visited fs d st.visited
      rw [hq] at h1 h2
      apply walkLoop_explored_nodup fs fuel
      · show (((st.explored ++ [d]) ++ (rest ++ (processDir fs d st.visited).2.1)).map fs.realpath).Nodup
        have hperm : (st.explored ++ [d]) ++ (rest ++ (processDir fs d st.visited).2.1)
            = (st.explored ++ d :: rest) ++ (processDir fs d st.visited).2.1 := by
          simp [List.append_assoc]
        rw [hperm, List.map_append]
        refine List.Nodup.append h1 pv2 ?_
        intro x hx hy
        rcases List.mem_map.mp hx with ⟨p, hp, rfl⟩
        exact pv3 _ hy (h2 p hp)
      · show ∀ p ∈ (st.explored ++ [d]) ++ (rest ++ (processDir fs d st.visited).2.1),
          fs.realpath p ∈ (processDir fs d st.visited).2.2
        intro p hp
        rw [pv1]
        have hperm : (st.explored ++ [d]) ++ (rest ++ (processDir fs d st.visited).2.1)
            = (st.explored ++ d :: rest) ++ (processDir fs d st.visited).2.1 := by
          simp [List.append_assoc]
        rw [hperm] at hp
        rcases List.mem_append.mp hp with h | h
        · exact List.mem_append.mpr (Or.inl (h2 p h))
        · exact List.mem_append.mpr (Or.inr (List.mem_map_of_mem fs.realpath h))

/-- C4 (amended): the symlink guard of `return_full_free` is one visited
set per root shared across the whole traversal, not a per-lineage set:
over the whole walk no real path is explored twice — in particular a
directory whose resolved real path already occurred in a different
(sibling) branch is not re-visited; its node is emitted but its contents
are not re-emitted (counterexample theorem). -/
theorem claim_C4_shared_guard (fs : FS) (fuel : Nat) (base : String) :
    ((walkLoop fs fuel
        ⟨[.dirMarker base], [base], [fs.realpath base], []⟩).explored.map fs.realpath).Nodup := by
  have h := walkLoop_explored_nodup fs fuel
    ⟨[.dirMarker base], [base], [fs.realpath base], []⟩ (by simp) (by simp)
  rw [List.map_append] at h
  exact h.of_append_left

/-- Fuel bounded below by the loop measure exhausts the queue: the
source's `while` loop terminates on any file system whose directory real
paths range over a finite universe `U`. -/
theorem walkLoop_exhausts (fs : FS) (U : List String)
    (hU : ∀ p, fs.isdir p = true → fs.realpath p ∈ U) :
    ∀ (fuel : Nat) (st : WalkSt),
    st.visited.Nodup → (∀ v ∈ st.visited, v ∈ U) →
    st.queue.length + U.length ≤ fuel + st.visited.length →
    (walkLoop fs fuel st).queue = []
  | 0, st, hn, hs, hm => by
    have := nodup_subset_length_le st.visited U hn hs
    rw [walkLoop]
    exact List.length_eq_zero.mp (by omega)
  | fuel + 1, st, hn, hs, hm => by
    rw [walkLoop]
    cases hq : st.queue with
    | nil => exact hq
    | cons d rest =>
      obtain ⟨pv1, pv2, pv3⟩ := processDir_visited fs d st.visited
      have hd := processDir_isdir fs d st.visited
      apply walkLoop_exhausts fs U hU fuel
      · show ((processDir fs d st.visited).2.2).Nodup
        rw [pv1]
        refine List.Nodup.append hn pv2 ?_
        intro x hx hy
        exact pv3 x hy hx
      · show ∀ v ∈ (processDir fs d st.visited).2.2, v ∈ U
        intro v hv
        rw [pv1] at hv
        rcases List.mem_append.mp hv with h | h
        · exact hs v h
        · rcases List.mem_map.mp h with ⟨p, hp, rfl⟩
          exact hU p (hd p hp)
      · show (rest ++ (processDir fs d st.visited).2.1).length + U.length
          ≤ fuel + ((processDir fs d st.visited).2.2).length
        have hlen : ((processDir fs d st.visited).2.2).length
            = st.visited.length + ((processDir fs d st.visited).2.1).length := by
          rw [pv1]
          simp
        have hql : st.queue.length = rest.length + 1 := by
          rw [hq]
          simp
        simp only [List.length_append]
        omega

/-- What has been processed keeps its output: `walkLoop` only appends. -/
theorem walkLoop_out_mono (fs : FS) : ∀ (fuel : Nat) (st : WalkSt),
    ∀ x ∈ st.out, x ∈ (walkLoop fs fuel st).out
  | 0, _, _, hx => hx
  | fuel + 1, st, x, hx => by
    rw [walkLoop]
    cases hq : st.queue with
    | nil => exact hx
    | cons d rest =>
      exact walkLoop_out_mono fs fuel _ x (List.mem_append.mpr (Or.inl hx))

/-- Every directory entry listed while processing an explored directory
has its node in the final output — including entries whose real path was
already visited. -/
theorem walkLoop_explored_out (fs : FS) : ∀ (fuel : Nat) (st : WalkSt),
    (∀ d ∈ st.explored, ∀ names, fs.listdir d = .ok names →
      ∀ nm ∈ names, fs.isdir (osJoin d nm) = true →
        PyTreeElem.dirMarker (osJoin d nm) ∈ st.out) →
    ∀ d ∈ (walkLoop fs fuel st).explored, ∀ names, fs.listdir d = .ok names →
      ∀ nm ∈ names, fs.isdir (osJoin d nm) = true →
        PyTreeElem.dirMarker (osJoin d nm) ∈ (walkLoop fs fuel st).out
  | 0, st, h, d, hd, names, hn, nm, hnm, hdir => h d hd names hn nm hnm hdir
  | fuel + 1, ⟨out, [], visited, explored⟩, h, d, hd, names, hn, nm, hnm, hdir =>
    h d hd names hn nm hnm hdir
  | fuel + 1, ⟨out, d0 :: rest, visited, explored⟩, h, d, hd, names, hn, nm, hnm, hdir => by
    refine walkLoop_explored_out fs fuel
      ⟨out ++ (processDir fs d0 visited).1, rest ++ (processDir fs d0 visited).2.1,
       (processDir fs d0 visited).2.2, explored ++ [d0]⟩ ?_ d hd names hn nm hnm hdir
    intro d2 hd2 names2 hn2 nm2 hnm2 hdir2
    rcases List.mem_append.mp hd2 with h2 | h2
    · exact List.mem_append.mpr (Or.inl (h d2 h2 names2 hn2 nm2 hnm2 hdir2))
    · simp only [List.mem_singleton] at h2
      subst h2
      refine List.mem_append.mpr (Or.inr ?_)
      show PyTreeElem.dirMarker (osJoin d2 nm2) ∈ (processDir fs d2 visited).1
      unfold processDir
      rw [hn2]
      exact processEntry_fold_out_mem fs d2 names2 ([], [], visited) nm2 hnm2 hdir2

/-- C5 (amended): on any file system whose directory real paths range
over a finite universe — in particular on a tree containing a symlink
cycle back to an ancestor — the walk terminates (its queue is exhausted
with finite fuel), and the directory node whose real path was already
visited is still emitted in the output; however no `loop_detected`
diagnostic is emitted in place of its children (counterexample theorem):
the already-visited directory is silently not enqueued. -/
theorem claim_C5_cycle_guard (fs : FS) (U : List String) (base : String) (fuel : Nat)
    (hU : ∀ p, fs.isdir p = true → fs.realpath p ∈ U)
    (hbase : fs.realpath base ∈ U)
    (hfuel : U.length ≤ fuel) :
    ((walkLoop fs fuel ⟨[.dirMarker base], [base], [fs.realpath base], []⟩).queue = [])
    ∧ (∀ d ∈ (walkLoop fs fuel ⟨[.dirMarker base], [base], [fs.realpath base], []⟩).explored,
        ∀ names, fs.listdir d = .ok names →
        ∀ nm ∈ names, fs.isdir (osJoin d nm) = true →
          PyTreeElem.dirMarker (osJoin d nm) ∈ return_full_free fs fuel base) := by
  constructor
  · apply walkLoop_exhausts fs U hU fuel
    · simp
    · simpa using hbase
    · simp
      omega
  · exact walkLoop_explored_out fs fuel _ (by simp)

/-- Witness for C5 (amended) on the concrete cyclic file system `fsC5`:
the queue is exhausted and the cycle node `/r/d/back` (an explored-dir
entry that is a directory) is emitted. -/
theorem claim_C5_cycle_guard_witness :
    ((walkLoop fsC5 10 ⟨[.dirMarker "/r"], ["/r"], [fsC5.realpath "/r"], []⟩).queue = [])
    ∧ PyTreeElem.dirMarker "/r/d/back" ∈ return_full_free fsC5 10 "/r" := by
  have hU : ∀ p, fsC5.isdir p = true → fsC5.realpath p ∈ ["/r", "/r/d", "/r/d/back"] := by
    intro p hp
    simp only [fsC5, Bool.or_eq_true, beq_iff_eq] at hp
    rcases hp with (h | h) | h <;> subst h <;> decide
  have h := claim_C5_cycle_guard fsC5 ["/r", "/r/d", "/r/d/back"] "/r" 10 hU
    (by decide) (by decide)
  refine ⟨h.1, ?_⟩
  have hmem : "/r/d" ∈ (walkLoop fsC5 10
      ⟨[.dirMarker "/r"], ["/r"], [fsC5.realpath "/r"], []⟩).explored := by
    decide
  exact h.2 "/r/d" hmem ["back"] (by decide) "back" (by decide) (by decide)


/-- C4, as stated, is false: in `fsC4` the directory `/r/b` resolves to
the real path `/t` already visited through the sibling branch `/r/a`;
the claim demands that `/r/b` be fully re-visited with its contents
re-emitted, but the walk emits only the `/r/b` directory node and never
the file `/r/b/f` — the visited set is shared across sibling branches. -/
theorem claim_C4_counterexample :
    return_full_free fsC4 10 "/r"
      = [.dirMarker "/r", .dirMarker "/r/a", .dirMarker "/r/b", .filePath "/r/a/f"]
    ∧ PyTreeElem.filePath "/r/b/f" ∉ return_full_free fsC4 10 "/r" := by
  decide

/-- C5, as stated, is false in its diagnostic part: in the cyclic `fsC5`
the walk terminates and still emits the node `/r/d/back` whose real path
`/r` was already visited, but no diagnostic of any kind — in particular
no `loop_detected` node — is emitted in place of its children; the
directory is silently not enqueued. -/
theorem claim_C5_counterexample :
    return_full_free fsC5 10 "/r"
      = [.dirMarker "/r", .dirMarker "/r/d", .dirMarker "/r/d/back"]
    ∧ ∀ s, PyTreeElem.marker s ∉ return_full_free fsC5 10 "/r" := by
  refine ⟨by decide, ?_⟩
  intro s hs
  have h : return_full_free fsC5 10 "/r"
      = [.dirMarker "/r", .dirMarker "/r/d", .dirMarker "/r/d/back"] := by decide
  rw [h] at hs
  simp at hs

/-- Lexicographic order on names (char lists), for the spec-modelled
sorted walker. -/
def nameLeChars : List Char → List Char → Bool
  | [], _ => true
  | _ :: _, [] => false
  | a :: as, b :: bs => if a = b then nameLeChars as bs else decide (a.toNat < b.toNat)

/-- Lexicographic order on names. -/
def nameLe (a b : String) : Bool := nameLeChars a.data b.data

/-- Insertion into a sorted name list. -/
def insertSorted (x : String) : List String → List String
  | [] => [x]
  | y :: ys => if nameLe x y then x :: y :: ys else y :: insertSorted x ys

/-- Insertion sort of names. -/
def sortNames : List String → List String
  | [] => []
  | x :: xs => insertSorted x (sortNames xs)

/-- Modelled from the spec (§4.1): a walker that is depth-first by
recursive descent and visits the entries of every directory in a
deterministic sort order by name, flattened to the same element type as
`return_full_free` for comparison.  Claim C6 asserts the source walker
behaves like this; the counterexample theorem shows it does not. -/
def specWalkChildren (fs : FS) : Nat → String → List PyTreeElem
  | 0, _ => []
  | fuel + 1, dir =>
    match fs.listdir dir with
    | .ok names =>
      ((sortNames names).map (fun name =>
        let full := osJoin dir name
        if fs.isdir full then .dirMarker full :: specWalkChildren fs fuel full
        else if fs.isfile full then [.filePath full]
        else [])).flatten
    | .permErr => [.marker ("_permission_denied_for:" ++ dir)]
    | .osErr msg => [.marker ("_error_accessing:" ++ dir ++ ":" ++ msg)]

/-- Modelled from the spec: the depth-first sorted walk of one root. -/
def specWalkDFS (fs : FS) (fuel : Nat) (root : String) : List PyTreeElem :=
  .dirMarker root :: specWalkChildren fs fuel root

/-- C6, as stated, is false: with listing order `["b", "a"]` in `/r` the
source walker emits `/r/b` before `/r/a` (entries are visited in
`os.listdir` order, not sorted by name) and emits the file `/r/a` before
the contents of `/r/b` (the loop is breadth-first via a queue, not
depth-first by recursive descent); the spec-modelled depth-first sorted
walker produces a different tree on the same oracle. -/
theorem claim_C6_counterexample :
    return_full_free fsC6 10 "/r" ≠ specWalkDFS fsC6 10 "/r"
    ∧ return_full_free fsC6 10 "/r"
      = [.dirMarker "/r", .dirMarker "/r/b", .filePath "/r/a", .filePath "/r/b/c"]
    ∧ specWalkDFS fsC6 10 "/r"
      = [.dirMarker "/r", .filePath "/r/a", .dirMarker "/r/b", .filePath "/r/b/c"] := by
  decide

/-- The entry loop depends only on the classification primitives. -/
theorem processEntry_congr (fs1 fs2 : FS) (hd : fs1.isdir = fs2.isdir)
    (hf : fs1.isfile = fs2.isfile) (hr : fs1.realpath = fs2.realpath) :
    processEntry fs1 = processEntry fs2 := by
  funext dir acc name
  simp only [processEntry, hd, hf, hr]

/-- Directory processing depends only on the listing primitives. -/
theorem processDir_congr (fs1 fs2 : FS) (hl : fs1.listdir = fs2.listdir)
    (hd : fs1.isdir = fs2.isdir) (hf : fs1.isfile = fs2.isfile)
    (hr : fs1.realpath = fs2.realpath) :
    processDir fs1 = processDir fs2 := by
  funext dir visited
  simp only [processDir, hl, processEntry_congr fs1 fs2 hd hf hr]

/-- The whole loop depends only on the listing primitives. -/
theorem walk_deterministic (fs1 fs2 : FS) (hl : fs1.listdir = fs2.listdir)
    (hd : fs1.isdir = fs2.isdir) (hf : fs1.isfile = fs2.isfile)
    (hr : fs1.realpath = fs2.realpath) :
    ∀ (fuel : Nat) (st : WalkSt), walkLoop fs1 fuel st = walkLoop fs2 fuel st
  | 0, _ => rfl
  | fuel + 1, ⟨out, [], visited, explored⟩ => rfl
  | fuel + 1, ⟨out, d :: rest, visited, explored⟩ => by
    have h1 : walkLoop fs1 (fuel + 1) ⟨out, d :: rest, visited, explored⟩
        = walkLoop fs1 fuel ⟨out ++ (processDir fs1 d visited).1,
            rest ++ (processDir fs1 d visited).2.1,
            (processDir fs1 d visited).2.2, explored ++ [d]⟩ := rfl
    have h2 : walkLoop fs2 (fuel + 1) ⟨out, d :: rest, visited, explored⟩
        = walkLoop fs2 fuel ⟨out ++ (processDir fs2 d visited).1,
            rest ++ (processDir fs2 d visited).2.1,
            (processDir fs2 d visited).2.2, explored ++ [d]⟩ := rfl
    rw [h1, h2, processDir_congr fs1 fs2 hl hd hf hr]
    exact walk_deterministic fs1 fs2 hl hd hf hr fuel _

/-- C6 (amended): the walker is deterministic as a function of the
listing primitives — two walks with identical
`listdir`/`isdir`/`isfile`/`realpath` results over an unchanged tree
produce identical flat trees — but traversal is breadth-first in
`os.listdir` order, not depth-first in sorted-name order: in `fsC6` the
directory `/r/b` precedes the file `/r/a` (listdir order) and `/r/a`
precedes the contents of `/r/b` (breadth-first). -/
theorem claim_C6_deterministic_bfs :
    (∀ fs1 fs2 : FS, fs1.listdir = fs2.listdir → fs1.isdir = fs2.isdir →
      fs1.isfile = fs2.isfile → fs1.realpath = fs2.realpath →
      ∀ fuel base, return_full_free fs1 fuel base = return_full_free fs2 fuel base)
    ∧ return_full_free fsC6 10 "/r"
      = [.dirMarker "/r", .dirMarker "/r/b", .filePath "/r/a", .filePath "/r/b/c"] := by
  constructor
  · intro fs1 fs2 hl hd hf hr fuel base
    unfold return_full_free
    rw [hr, walk_deterministic fs1 fs2 hl hd hf hr]
  · decide

/-- The C6 oracle with different file contents but identical listing
results. -/
def fsC6b : FS := { fsC6 with fileBytes := fun _ => [1] }

/-- Witness for C6 (amended): two oracles agreeing on the four listing
primitives (here differing in file contents) walk identically. -/
theorem claim_C6_deterministic_bfs_witness :
    return_full_free fsC6 10 "/r" = return_full_free fsC6b 10 "/r" :=
  claim_C6_deterministic_bfs.1 fsC6 fsC6b rfl rfl rfl rfl 10 "/r"

/-- ASCII whitespace, for Python `str.strip()` / `str.split()` (the
format only ever produces ASCII whitespace). -/
def isPySpace (c : Char) : Bool :=
  c == ' ' || c == '\t' || c == '\n' || c == '\r' || c == '\x0b' || c == '\x0c'

/-- Python `s.strip()` on a char list. -/
def pyStripChars (l : List Char) : List Char :=
  ((l.dropWhile isPySpace).reverse.dropWhile isPySpace).reverse

/-- Python `s.strip()`. -/
def pyStrip (s : String) : String := String.mk (pyStripChars s.data)

/-- Substring test (`sub in s`), on char lists. -/
def containsSub : List Char → List Char → Bool
  | _, [] => true
  | [], _ :: _ => false
  | c :: rest, p0 :: prest =>
    (p0 :: prest).isPrefixOf (c :: rest) || containsSub rest (p0 :: prest)

/-- Python `sub in s`. -/
def strContains (s sub : String) : Bool := containsSub s.data sub.data

/-- Python `s[n:]` (character slicing). -/
def strDropN (s : String) (n : Nat) : String := String.mk (s.data.drop n)

/-- Python `s.split(sep)` for a non-empty separator, on char lists:
non-overlapping, left to right, keeping empty segments. -/
def splitOnF (s0 : Char) (srest : List Char) : Nat → List Char → List (List Char)
  | 0, l => [l]
  | _ + 1, [] => [[]]
  | fuel + 1, c :: rest =>
    if (s0 :: srest).isPrefixOf (c :: rest) then
      [] :: splitOnF s0 srest fuel (List.drop srest.length rest)
    else
      match splitOnF s0 srest fuel rest with
      | [] => [[c]]
      | seg :: segs => (c :: seg) :: segs

def splitOnChars (s0 : Char) (srest : List Char) (l : List Char) : List (List Char) :=
  splitOnF s0 srest (l.length + 1) l

theorem splitOnF_fuel (s0 : Char) (srest : List Char) :
    ∀ (f f' : Nat) (l : List Char), l.length < f → l.length < f' →
    splitOnF s0 srest f l = splitOnF s0 srest f' l
  | 0, _, l, h, _ => absurd h (by omega)
  | _ + 1, 0, l, _, h' => absurd h' (by omega)
  | _ + 1, _ + 1, [], _, _ => rfl
  | f + 1, f' + 1, c :: rest, h, h' => by
    simp only [List.length_cons] at h h'
    simp only [splitOnF]
    by_cases hp : (s0 :: srest).isPrefixOf (c :: rest) = true
    · rw [if_pos hp, if_pos hp,
        splitOnF_fuel s0 srest f f' (List.drop srest.length rest)
          (by simp only [List.length_drop]; omega) (by simp only [List.length_drop]; omega)]
    · rw [if_neg hp, if_neg hp, splitOnF_fuel s0 srest f f' rest (by omega) (by omega)]

theorem splitOnChars_nil (s0 : Char) (srest : List Char) :
    splitOnChars s0 srest [] = [[]] := rfl

/-- The recursive unfolding of the separator split. -/
theorem splitOnChars_cons (s0 : Char) (srest : List Char) (c : Char) (rest : List Char) :
    splitOnChars s0 srest (c :: rest)
      = if (s0 :: srest).isPrefixOf (c :: rest) then
          [] :: splitOnChars s0 srest (List.drop srest.length rest)
        else
          match splitOnChars s0 srest rest with
          | [] => [[c]]
          | seg :: segs => (c :: seg) :: segs := by
  show splitOnF s0 srest ((c :: rest).length + 1) (c :: rest) = _
  simp only [List.length_cons, splitOnF]
  by_cases hp : (s0 :: srest).isPrefixOf (c :: rest) = true
  · rw [if_pos hp, if_pos hp,
      splitOnF_fuel s0 srest (rest.length + 1) ((List.drop srest.length rest).length + 1)
        (List.drop srest.length rest) (by simp only [List.length_drop]; omega) (by omega)]
    rfl
  · rw [if_neg hp, if_neg hp]
    rfl

/-- Python `s.split(sep)` for a non-empty separator. -/
def pySplit (s sep : String) : List String :=
  match sep.data with
  | [] => [s]
  | c :: cs => (splitOnChars c cs s.data).map String.mk

/-- Python `s.split()` (split on whitespace runs, dropping empties), on
char lists, with an accumulator for the current word. -/
def pySplitWsChars : List Char → List Char → List (List Char)
  | [], cur => if cur.isEmpty then [] else [cur.reverse]
  | c :: rest, cur =>
    if isPySpace c then
      if cur.isEmpty then pySplitWsChars rest []
      else cur.reverse :: pySplitWsChars rest []
    else pySplitWsChars rest (c :: cur)

/-- Python `s.split()`. -/
def pySplitWs (s : String) : List String := (pySplitWsChars s.data []).map String.mk

/-- Python `item.split("=", 1)` when `"=" in item`: the part before the
first `=` and the part after it; `none` when there is no `=`. -/
def splitFirstEq : List Char → Option (List Char × List Char)
  | [] => none
  | c :: rest =>
    if c = '=' then some ([], rest)
    else (splitFirstEq rest).map (fun p => (c :: p.1, p.2))

/-- The `dict(item.split("=", 1) for item in content.split() if "=" in
item)` of the header parser, as an association list in insertion order. -/
def parseKV (content : String) : List (String × String) :=
  (pySplitWs content).filterMap (fun item =>
    (splitFirstEq item.data).map (fun p => (String.mk p.1, String.mk p.2)))

/-- Python `dict` lookup on the association list: the LAST binding of a
key wins, as later duplicate keys override earlier ones. -/
def kvGet (kv : List (String × String)) (k : String) : Option String :=
  (kv.reverse.find? (fun p => p.1 == k)).map Prod.snd

/-- Decimal digit test. -/
def isDigitChar (c : Char) : Bool := decide (48 ≤ c.toNat) && decide (c.toNat ≤ 57)

/-- Value of a decimal digit character. -/
def digitVal (c : Char) : Nat := c.toNat - 48

/-- Python `int(s)` restricted to the unsigned decimals this format
writes; `none` models the `ValueError` surfaced on anything else. -/
def pyInt (s : String) : Option Nat :=
  let l := pyStripChars s.data
  if l ≠ [] ∧ l.all isDigitChar then
    some (l.foldl (fun a c => a * 10 + digitVal c) 0)
  else none

/-- Decimal rendering of a natural number (Python `str(n)` for the sizes
the encoder writes). -/
def natCharsF : Nat → Nat → List Char
  | 0, _ => []
  | fuel + 1, n =>
    if n < 10 then [Char.ofNat (48 + n)]
    else natCharsF fuel (n / 10) ++ [Char.ofNat (48 + n % 10)]

def natChars (n : Nat) : List Char := natCharsF (n + 1) n

theorem natCharsF_fuel : ∀ (f f' n : Nat), n < f → n < f' → natCharsF f n = natCharsF f' n
  | 0, _, n, h, _ => absurd h (by omega)
  | _ + 1, 0, n, _, h' => absurd h' (by omega)
  | f + 1, f' + 1, n, h, h' => by
    simp only [natCharsF]
    by_cases h10 : n < 10
    · rw [if_pos h10, if_pos h10]
    · have hd : n / 10 < n := Nat.div_lt_self (by omega) (by omega)
      rw [if_neg h10, if_neg h10, natCharsF_fuel f f' (n / 10) (by omega) (by omega)]

/-- The recursive unfolding of the decimal rendering. -/
theorem natChars_eq (n : Nat) : natChars n =
    if n < 10 then [Char.ofNat (48 + n)]
    else natChars (n / 10) ++ [Char.ofNat (48 + n % 10)] := by
  show natCharsF (n + 1) n = _
  by_cases h10 : n < 10
  · simp only [natCharsF, if_pos h10]
  · simp only [natCharsF, if_neg h10]
    rw [natCharsF_fuel n (n / 10 + 1) (n / 10)
      (Nat.div_lt_self (by omega) (by omega)) (by omega)]
    rfl

/-- Split a POSIX path into its anchor flag and components, dropping
empty components and `.` as `pathlib.PurePosixPath` does. -/
def pathComps (s : String) : Bool × List String :=
  (strStarts s "/",
   ((splitOnChars '/' [] s.data).map String.mk).filter (fun c => c != "" && c != "."))

/-- Join path components with separators. -/
def joinComps : List String → String
  | [] => ""
  | [c] => c
  | c :: c2 :: rest => c ++ "/" ++ joinComps (c2 :: rest)

/-- Render an anchor flag and components back to a POSIX path string,
as `pathlib` stringifies a path (`.` for an empty relative path). -/
def renderPath : Bool × List String → String
  | (abs, comps) =>
    if comps.isEmpty then (if abs then "/" else ".")
    else (if abs then "/" else "") ++ joinComps comps

/-- `to_posix`: `Path(path).as_posix()` on a POSIX host — collapses
duplicate separators and `.` components and strips trailing
separators. -/
def to_posix (path : String) : String := renderPath (pathComps path)

/-- `Path(p).name`: the final component, or `""` when there is none. -/
def pathName (p : String) : String := ((pathComps p).2.getLast?).getD ""

/-- `relative_under_root`: relativize the resolved file path under the
resolved root, falling back to the file's basename when it does not lie
under the root (the `except` branch around `Path.relative_to`).
`resolve` is the symlink-resolving oracle (`Path.resolve`). -/
def relative_under_root (resolve : String → String) (root file_path : String) : String :=
  let rp := pathComps (resolve root)
  let fp := pathComps (resolve file_path)
  if rp.1 = fp.1 ∧ rp.2.isPrefixOf fp.2 then
    renderPath (false, fp.2.drop rp.2.length)
  else
    pathName file_path

/-- The `/` operator of `pathlib`: an absolute right operand resets the
path, otherwise components accumulate. -/
def pathlibJoin (a b : String) : String :=
  let pa := pathComps a
  let pb := pathComps b
  if pb.1 then renderPath pb else renderPath (pa.1, pa.2 ++ pb.2)

/-- The literal delimiters and prefixes of the archive format. -/
def OPEN_DELIM : String := "╒════[BACKUP_START]═══╕"

/-- Closing delimiter line. -/
def CLOSE_DELIM : String := "╘════[BACKUP_END]═══╛"

/-- Record begin marker line. -/
def RECORD_BEGIN_LINE : String := "»[RECORD_BEGIN]«"

/-- Record end marker line. -/
def RECORD_END_LINE : String := "»[RECORD_END]«"

/-- Header line tag (`_HEADER_PREFIX` in the source). -/
def HEADER_TAG : String := "»[HEADER]«"

/-- Payload line tag (`_PAYLOAD_PREFIX` in the source). -/
def PAYLOAD_TAG : String := "»[PAYLOAD]«"

/-- Metadata line tag (`_META_PREFIX` in the source). -/
def META_TAG : String := "»[META]«"

/-- Format version. -/
def VERSION : Nat := 2

/-- `CHUNK_SIZE`: 1 MiB read chunks. -/
def CHUNK_SIZE : Nat := 1024 * 1024

/-- `is_special_marker`. -/
def is_special_marker (node : String) : Bool :=
  strStarts node "_loop_detected" || strStarts node "_permission_denied"
    || strStarts node "_error_accessing"

/-- A node of the dynamic tree structure consumed by `iter_tree_files`:
a Python `str`, or a `dict` mapping path keys to child lists. -/
inductive PyNode where
  | str (s : String)
  | dict (entries : List (String × List PyNode))

mutual

/-- `_walk` of `iter_tree_files` on one node. -/
def iterNode (root : String) : PyNode → List (String × String)
  | .str s => if is_special_marker s then [] else [(root, s)]
  | .dict entries => iterEntries root entries

/-- `for children in node.values(): for child in children:` over the
dict entries. -/
def iterEntries (root : String) : List (String × List PyNode) → List (String × String)
  | [] => []
  | (_, children) :: rest => iterChildren root children ++ iterEntries root rest

/-- Walk each child of one dict value. -/
def iterChildren (root : String) : List PyNode → List (String × String)
  | [] => []
  | child :: rest => iterNode root child ++ iterChildren root rest

end

/-- `iter_tree_files`: flatten the tree into `(root, file_path)` pairs. -/
def iter_tree_files (tree : List (String × List PyNode)) : List (String × String) :=
  (tree.map (fun e => iterChildren e.1 e.2)).flatten

/-- The per-root list of `return_full_free` as the Python value consumed
by `iter_tree_files`: directory markers are one-entry dicts with empty
child lists, everything else is a string. -/
def elemToNode : PyTreeElem → PyNode
  | .dirMarker p => .dict [(p, [])]
  | .filePath p => .str p
  | .marker s => .str s

/-- `read_chunks`: split a file's bytes into `CHUNK_SIZE` chunks (the
`while chunk := src_file.read(CHUNK_SIZE)` loop).  Faithful for any
chunk size `n ≥ 1`. -/
def chunksF (n : Nat) : Nat → List Nat → List (List Nat)
  | 0, _ => []
  | _ + 1, [] => []
  | fuel + 1, b :: rest => List.take n (b :: rest) :: chunksF n fuel (List.drop (n - 1) rest)

def chunksOf (n : Nat) (l : List Nat) : List (List Nat) := chunksF n (l.length + 1) l

theorem chunksF_fuel (n : Nat) : ∀ (f f' : Nat) (l : List Nat), l.length < f → l.length < f' →
    chunksF n f l = chunksF n f' l
  | 0, _, l, h, _ => absurd h (by omega)
  | _ + 1, 0, l, _, h' => absurd h' (by omega)
  | _ + 1, _ + 1, [], _, _ => rfl
  | f + 1, f' + 1, b :: rest, h, h' => by
    simp only [List.length_cons] at h h'
    simp only [chunksF]
    rw [chunksF_fuel n f f' (List.drop (n - 1) rest)
      (by simp only [List.length_drop]; omega) (by simp only [List.length_drop]; omega)]

theorem chunksOf_nil (n : Nat) : chunksOf n [] = [] := rfl

/-- The recursive unfolding of the chunk reader. -/
theorem chunksOf_cons (n : Nat) (b : Nat) (rest : List Nat) :
    chunksOf n (b :: rest)
      = List.take n (b :: rest) :: chunksOf n (List.drop (n - 1) rest) := by
  show chunksF n ((b :: rest).length + 1) (b :: rest) = _
  simp only [List.length_cons, chunksF]
  rw [chunksF_fuel n (rest.length + 1) ((List.drop (n - 1) rest).length + 1)
    (List.drop (n - 1) rest) (by simp only [List.length_drop]; omega) (by omega)]
  rfl

/-- Rejoining the chunks gives back the bytes (`n ≥ 1`). -/
theorem chunksOf_flatten (n : Nat) (hn : 1 ≤ n) : ∀ (l : List Nat),
    (chunksOf n l).flatten = l
  | [] => by rw [chunksOf_nil]; rfl
  | b :: rest => by
    have ih := chunksOf_flatten n hn (List.drop (n - 1) rest)
    rw [chunksOf_cons]
    obtain ⟨n', rfl⟩ : ∃ n', n = n' + 1 := ⟨n - 1, by omega⟩
    simp only [List.flatten_cons, Nat.add_sub_cancel] at ih ⊢
    rw [ih, List.take_succ_cons]
    simp [List.take_append_drop]
termination_by l => l.length
decreasing_by simp [List.length_drop]; omega

/-- Chunking introduces no bytes. -/
theorem chunksOf_mem (n : Nat) : ∀ (l : List Nat), ∀ c ∈ chunksOf n l, ∀ b ∈ c, b ∈ l
  | [] => by rw [chunksOf_nil]; simp
  | x :: rest => by
    have ih := chunksOf_mem n (List.drop (n - 1) rest)
    rw [chunksOf_cons]
    intro c hc b hb
    rcases List.mem_cons.mp hc with h | h
    · subst h
      exact List.take_subset _ _ hb
    · exact List.mem_cons_of_mem x (List.drop_subset _ _ (ih c h b hb))
termination_by l => l.length
decreasing_by simp [List.length_drop]; omega

/-- `root_prefix_id`: the first 16 hex characters of the SHA-256 of the
POSIX root path; `strHash` abstracts `sha256(x.encode()).hexdigest()[:16]`
(a stdlib call, not repository code). -/
def root_prefix_id (strHash : String → String) (root : String) : String :=
  strHash (to_posix root)

/-- The lines `aggregate_to_backup` writes for one `(root, file_path)`
pair that passed the `isfile` re-check: begin marker, file-info header,
wrapped payload, size/checksum header, end marker.  `sha` abstracts
`hashlib.sha256(...).hexdigest()` over the file's bytes. -/
def recordLines (strHash : String → String) (sha : List Nat → String) (fs : FS)
    (root file_path : String) : List String :=
  let rid := root_prefix_id strHash root
  let rel := to_posix (relative_under_root fs.realpath root file_path)
  let full := to_posix file_path
  let bytes := fs.fileBytes file_path
  [RECORD_BEGIN_LINE,
   HEADER_TAG ++ " root_id=" ++ rid ++ " rel=" ++ rel ++ " src_full_posix=" ++ full
     ++ " encoding=b64"]
  ++ (b64_encode_stream (chunksOf CHUNK_SIZE bytes) 76).map (fun l => PAYLOAD_TAG ++ " " ++ l)
  ++ [HEADER_TAG ++ " size=" ++ String.mk (natChars bytes.length) ++ " sha256=" ++ sha bytes,
      RECORD_END_LINE]

/-- The `roots_meta` dict comprehension: id-to-posix entries in key
insertion order, later duplicate keys overriding the stored value. -/
def rootsMeta (strHash : String → String) (roots : List String) : List (String × String) :=
  roots.foldl (fun acc root =>
    let rid := root_prefix_id strHash root
    if acc.any (fun p => p.1 == rid) then
      acc.map (fun p => if p.1 == rid then (rid, to_posix root) else p)
    else acc ++ [(rid, to_posix root)]) []

/-- `sorted(roots_meta.items())`: insertion sort by the (distinct) id
keys. -/
def insertSortedKV (x : String × String) : List (String × String) → List (String × String)
  | [] => [x]
  | y :: ys => if nameLe x.1 y.1 then x :: y :: ys else y :: insertSortedKV x ys

/-- Sort the root registry entries by id. -/
def sortKV : List (String × String) → List (String × String)
  | [] => []
  | x :: xs => insertSortedKV x (sortKV xs)

/-- `aggregate_to_backup`: the complete list of lines written to the
backup for a tree — open delimiter, version meta line, sorted root
registry, one record block per file passing the `isfile` re-check, close
delimiter. -/
def aggregate_to_backup (strHash : String → String) (sha : List Nat → String)
    (fs : FS) (tree : List (String × List PyNode)) : List String :=
  [OPEN_DELIM, META_TAG ++ " version=" ++ String.mk (natChars VERSION)]
  ++ (sortKV (rootsMeta strHash (tree.map Prod.fst))).map
      (fun p => META_TAG ++ " root_id=" ++ p.1 ++ " root_posix=" ++ p.2)
  ++ ((iter_tree_files tree).map (fun rf =>
        if fs.isfile rf.2 then recordLines strHash sha fs rf.1 rf.2 else [])).flatten
  ++ [CLOSE_DELIM]

/-- Runtime errors `unpack_from_backup` can surface: the `BackupError`s
it raises itself, plus exceptions of library calls it does not catch
(`binascii.Error` from `b64decode`, `ValueError` from `int`, `IndexError`
from a malformed meta line — its `except` clause only catches
`IOError`/`OSError`). -/
inductive PyErr where
  | backupError (msg : String)
  | binasciiError
  | valueError
  | indexError
deriving DecidableEq

/-- Decoder state of `unpack_from_backup`: the root registry read so
far, the record count, the path of the currently open output file (its
bytes live in `disk`; the running `current_sha` is recomputed from those
bytes on close), the declared checksum/size, the decoded byte count, and
the files written so far in creation order. -/
structure DecodeSt where
  root_map : List (String × String)
  file_count : Nat
  current : Option String
  expected_sha : Option String
  expected_size : Nat
  actual_size : Nat
  disk : List (String × List Nat)
deriving DecidableEq

/-- Write (or truncate-and-write) a file on the modelled disk. -/
def setFile (disk : List (String × List Nat)) (p : String) (bytes : List Nat) :
    List (String × List Nat) :=
  if disk.any (fun e => e.1 == p) then
    disk.map (fun e => if e.1 == p then (p, bytes) else e)
  else disk ++ [(p, bytes)]

/-- Read a file from the modelled disk. -/
def getFile (disk : List (String × List Nat)) (p : String) : Option (List Nat) :=
  (disk.find? (fun e => e.1 == p)).map Prod.snd

/-- Assoc-map update for `root_map[rid] = value`. -/
def mapSet (m : List (String × String)) (k v : String) : List (String × String) :=
  if m.any (fun e => e.1 == k) then
    m.map (fun e => if e.1 == k then (k, v) else e)
  else m ++ [(k, v)]

/-- Python `dict.get(k, dflt)` on the assoc map. -/
def mapGet (m : List (String × String)) (k : String) (dflt : String) : String :=
  (((m.reverse.find? (fun p => p.1 == k)).map Prod.snd).getD dflt)

/-- `sanitize_root`: strip leading separators and a drive-letter
colon. -/
def sanitize_root (root_posix : String) : String :=
  let root_clean := String.mk (root_posix.data.dropWhile (fun c => c == '/'))
  match root_clean.data with
  | c0 :: c1 :: rest => if c1 = ':' then String.mk (c0 :: rest) else root_clean
  | _ => root_clean

/-- `close_current_file`: when a file is open, verify the declared
checksum (if one was set and is non-empty) and then the declared size
against what was decoded; in lenient mode a mismatch only logs.  On the
raised `BackupError` the state is returned unchanged (the source does
not reach its `current_out_file = None` line). -/
def close_current_file (sha : List Nat → String) (skip_errors : Bool) (st : DecodeSt) :
    Except PyErr DecodeSt :=
  match st.current with
  | none => .ok st
  | some p =>
    let bytes := (getFile st.disk p).getD []
    let shaMismatch :=
      match st.expected_sha with
      | some h => h != "" && sha bytes != h
      | none => false
    if shaMismatch && !skip_errors then
      .error (.backupError "Checksum mismatch for file in backup!")
    else if (st.expected_size != st.actual_size) && !skip_errors then
      .error (.backupError "Size mismatch for file in backup!")
    else .ok { st with current := none }

/-- The meta-line branch: register a root when both `root_id=` and
`root_posix=` occur in the line (`IndexError` on the malformed cases the
source does not guard). -/
def metaLineUpdate (line : String) (root_map : List (String × String)) :
    Except PyErr (List (String × String)) :=
  if strContains line "root_id=" && strContains line "root_posix=" then
    let content := pyStrip (strDropN line META_TAG.length)
    match pySplit content " root_posix=" with
    | p0 :: p1 :: _ =>
      match pySplit p0 "root_id=" with
      | _ :: r1 :: _ => .ok (mapSet root_map (pyStrip r1) (pyStrip p1))
      | _ => .error .indexError
    | _ => .error .indexError
  else .ok root_map

/-- Decoding one line of the backup: the body of the
`for raw_line in backup_file:` loop of `unpack_from_backup`. -/
def unpackLine (sha : List Nat → String) (skip_errors : Bool) (target : String)
    (st : DecodeSt) (raw_line : String) : Except PyErr DecodeSt :=
  let line := pyStrip raw_line
  if line = "" then .ok st
  else if strStarts line META_TAG then
    match metaLineUpdate line st.root_map with
    | .ok m => .ok { st with root_map := m }
    | .error e => .error e
  else if line = RECORD_BEGIN_LINE then
    close_current_file sha skip_errors st
  else if line = RECORD_END_LINE then
    match close_current_file sha skip_errors st with
    | .ok st2 => .ok { st2 with file_count := st2.file_count + 1 }
    | .error e => .error e
  else if strStarts line HEADER_TAG then
    let kv := parseKV (pyStrip (strDropN line HEADER_TAG.length))
    let st2 :=
      match kvGet kv "root_id", kvGet kv "rel" with
      | some rid, some rel =>
        let root_path_str := mapGet st.root_map rid ("unknown_" ++ rid)
        let out_path := pathlibJoin (pathlibJoin target (sanitize_root root_path_str)) rel
        { st with current := some out_path, actual_size := 0,
                  disk := setFile st.disk out_path [] }
      | _, _ => st
    match kvGet kv "sha256" with
    | some hsha =>
      match (match kvGet kv "size" with
             | none => some 0
             | some sz => pyInt sz) with
      | some n => .ok { st2 with expected_sha := some hsha, expected_size := n }
      | none => .error .valueError
    | none => .ok st2
  else if strStarts line PAYLOAD_TAG && st.current.isSome then
    match st.current with
    | some p =>
      match b64DecodeChars (pyStrip (strDropN line PAYLOAD_TAG.length)).data with
      | some chunk =>
        let bytes := (getFile st.disk p).getD [] ++ chunk
        .ok { st with disk := setFile st.disk p bytes,
                      actual_size := st.actual_size + chunk.length }
      | none => .error .binasciiError
    | none => .ok st
  else .ok st

/-- The line loop: on an uncaught exception the state reached so far is
returned alongside the error (the partially written disk persists). -/
def unpackLines (sha : List Nat → String) (skip_errors : Bool) (target : String) :
    DecodeSt → List String → DecodeSt × Option PyErr
  | st, [] => (st, none)
  | st, l :: rest =>
    match unpackLine sha skip_errors target st l with
    | .ok st2 => unpackLines sha skip_errors target st2 rest
    | .error e => (st, some e)

/-- `unpack_from_backup` on the lines of a backup file: stream the line
loop from the initial state, then run the `finally:` close (whose own
`BackupError`, if any, supersedes the in-flight exception, as a raise in
a `finally` block does). -/
def unpack_from_backup (sha : List Nat → String) (skip_errors : Bool) (target : String)
    (lines : List String) : DecodeSt × Option PyErr :=
  match unpackLines sha skip_errors target ⟨[], 0, none, none, 0, 0, []⟩ lines with
  | (st, none) =>
    match close_current_file sha skip_errors st with
    | .ok st2 => (st2, none)
    | .error e => (st, some e)
  | (st, some e) =>
    match close_current_file sha skip_errors st with
    | .ok _ => (st, some e)
    | .error e2 => (st, some e2)

theorem isPrefixOf_append_of_le : ∀ (p a x : List Char), p.length ≤ a.length →
    p.isPrefixOf (a ++ x) = p.isPrefixOf a
  | [], _, _, _ => by simp [List.isPrefixOf]
  | _ :: _, [], _, h => by simp at h
  | p0 :: ps, a0 :: as, x, h => by
    simp only [List.cons_append, List.isPrefixOf]
    rw [show as.append x = as ++ x from rfl,
      isPrefixOf_append_of_le ps as x (by simpa using h)]

theorem strStarts_append_left (a x p : String) (h : p.length ≤ a.length) :
    strStarts (a ++ x) p = strStarts a p := by
  simp only [strStarts, String.data_append]
  exact isPrefixOf_append_of_le p.data a.data x.data h

theorem strStarts_append_self (a x : String) : strStarts (a ++ x) a = true := by
  simp only [strStarts, String.data_append]
  exact List.isPrefixOf_iff_prefix.mpr (List.prefix_append a.data x.data)

theorem append_ne_of_not_starts (a x b : String) (h : strStarts b a = false) :
    a ++ x ≠ b := by
  intro he
  rw [← he, strStarts_append_self] at h
  simp at h

theorem mem_of_getLast?_eq (l : List Char) (c : Char) (h : l.getLast? = some c) : c ∈ l := by
  rw [← List.head?_reverse] at h
  have hm : c ∈ l.reverse := by
    cases hr : l.reverse with
    | nil => rw [hr] at h; simp at h
    | cons a t =>
      rw [hr] at h
      simp at h
      simp [hr, h]
  simpa using hm

theorem mem_of_head?_eq (l : List Char) (c : Char) (h : l.head? = some c) : c ∈ l := by
  cases l with
  | nil => simp at h
  | cons a t =>
    simp at h
    simp [h]

theorem pyStripChars_eq_self : ∀ (l : List Char),
    (∀ c, l.head? = some c → isPySpace c = false) →
    (∀ c, l.getLast? = some c → isPySpace c = false) →
    pyStripChars l = l := by
  intro l h1 h2
  unfold pyStripChars
  have hd : l.dropWhile isPySpace = l := by
    cases l with
    | nil => rfl
    | cons c rest =>
      rw [List.dropWhile_cons]
      rw [h1 c rfl]
      simp
  rw [hd]
  have hrev : l.reverse.dropWhile isPySpace = l.reverse := by
    cases hr : l.reverse with
    | nil => rfl
    | cons c rest =>
      rw [List.dropWhile_cons]
      have hc : l.getLast? = some c := by
        rw [← List.head?_reverse, hr]
        rfl
      rw [h2 c hc]
      simp
  rw [hrev, List.reverse_reverse]

theorem pyStrip_eq_self (s : String)
    (h1 : ∀ c, s.data.head? = some c → isPySpace c = false)
    (h2 : ∀ c, s.data.getLast? = some c → isPySpace c = false) :
    pyStrip s = s := by
  simp only [pyStrip, pyStripChars_eq_self s.data h1 h2]

theorem splitFirstEq_spec : ∀ (k v : List Char), '=' ∉ k →
    splitFirstEq (k ++ '=' :: v) = some (k, v)
  | [], v, _ => by simp [splitFirstEq]
  | c :: ks, v, h => by
    have hc : ¬c = '=' := fun hh => h (hh ▸ List.mem_cons_self c ks)
    have ih := splitFirstEq_spec ks v (fun hm => h (List.mem_cons_of_mem c hm))
    simp [splitFirstEq, hc, ih]

/-- Digit-character facts, checked over the ten digits. -/
theorem digit_char_facts : ∀ k : Fin 10,
    isPySpace (Char.ofNat (48 + k.val)) = false
    ∧ isDigitChar (Char.ofNat (48 + k.val)) = true
    ∧ digitVal (Char.ofNat (48 + k.val)) = k.val := by
  decide

theorem digit_not_space (c : Char) (h : isDigitChar c = true) : isPySpace c = false := by
  simp only [isDigitChar, Bool.and_eq_true, decide_eq_true_eq] at h
  have he : Char.ofNat (48 + (c.toNat - 48)) = c := by
    have h48 : 48 + (c.toNat - 48) = c.toNat := by omega
    rw [h48]
    exact Char.ofNat_toNat c
  have hf := (digit_char_facts ⟨c.toNat - 48, by omega⟩).1
  rwa [he] at hf

theorem natChars_ne_nil (n : Nat) : natChars n ≠ [] := by
  rw [natChars_eq]
  by_cases h : n < 10 <;> simp [h]

theorem natChars_all_digits (n : Nat) : ∀ c ∈ natChars n, isDigitChar c = true := by
  induction n using Nat.strong_induction_on with
  | _ n ih =>
    by_cases h : n < 10
    · rw [natChars_eq, if_pos h]
      intro c hc
      simp at hc
      subst hc
      exact (digit_char_facts ⟨n, h⟩).2.1
    · rw [natChars_eq, if_neg h]
      intro c hc
      rcases List.mem_append.mp hc with h2 | h2
      · exact ih (n / 10) (Nat.div_lt_self (by omega) (by omega)) c h2
      · simp at h2
        subst h2
        exact (digit_char_facts ⟨n % 10, by omega⟩).2.1

theorem natChars_foldl (n : Nat) : ∀ (a : Nat),
    (natChars n).foldl (fun acc c => acc * 10 + digitVal c) a
      = a * 10 ^ (natChars n).length + n := by
  induction n using Nat.strong_induction_on with
  | _ n ih =>
    intro a
    by_cases h : n < 10
    · rw [natChars_eq, if_pos h]
      simp [List.foldl, (digit_char_facts ⟨n, h⟩).2.2]
    · rw [natChars_eq, if_neg h, List.foldl_append,
        ih (n / 10) (Nat.div_lt_self (by omega) (by omega)) a]
      simp only [List.foldl_cons, List.foldl_nil, List.length_append, List.length_cons,
        List.length_nil]
      rw [(digit_char_facts ⟨n % 10, by omega⟩).2.2]
      have hdm : n / 10 * 10 + n % 10 = n := by omega
      have hlen : (natChars (n / 10)).length + (0 + 1) = (natChars (n / 10)).length + 1 := by omega
      rw [hlen, pow_succ]
      calc (a * 10 ^ (natChars (n / 10)).length + n / 10) * 10 + n % 10
          = a * (10 ^ (natChars (n / 10)).length * 10) + (n / 10 * 10 + n % 10) := by ring
        _ = a * (10 ^ (natChars (n / 10)).length * 10) + n := by rw [hdm]

theorem pyStripChars_digits (l : List Char) (hall : ∀ c ∈ l, isDigitChar c = true) :
    pyStripChars l = l := by
  apply pyStripChars_eq_self
  · intro c hc
    exact digit_not_space c (hall c (mem_of_head?_eq l c hc))
  · intro c hc
    exact digit_not_space c (hall c (mem_of_getLast?_eq l c hc))

theorem pyInt_natChars (n : Nat) : pyInt (String.mk (natChars n)) = some n := by
  unfold pyInt
  have hall := natChars_all_digits n
  show (let l := pyStripChars (natChars n);
    if l ≠ [] ∧ l.all isDigitChar then
      some (l.foldl (fun a c => a * 10 + digitVal c) 0) else none) = some n
  rw [show pyStripChars (natChars n) = natChars n from pyStripChars_digits _ hall]
  rw [if_pos ⟨natChars_ne_nil n, by simpa [List.all_eq_true] using hall⟩]
  rw [natChars_foldl n 0]
  simp

/-- Join words with single spaces (the shape of the header content the
encoder writes). -/
def sepJoin : List (List Char) → List Char
  | [] => []
  | [w] => w
  | w :: w2 :: ws => w ++ ' ' :: sepJoin (w2 :: ws)

theorem pySplitWsChars_word : ∀ (w rest cur : List Char), (∀ c ∈ w, isPySpace c = false) →
    pySplitWsChars (w ++ rest) cur = pySplitWsChars rest (w.reverse ++ cur)
  | [], rest, cur, _ => by simp
  | c :: ws, rest, cur, h => by
    simp only [List.cons_append, pySplitWsChars]
    rw [h c (List.mem_cons_self c ws)]
    simp only [Bool.false_eq_true, if_false, reduceIte]
    rw [show ws.append rest = ws ++ rest from rfl,
      pySplitWsChars_word ws rest (c :: cur) (fun x hx => h x (List.mem_cons_of_mem c hx))]
    simp [List.append_assoc]

theorem pySplitWsChars_words : ∀ (words : List (List Char)),
    (∀ w ∈ words, w ≠ [] ∧ ∀ c ∈ w, isPySpace c = false) →
    pySplitWsChars (sepJoin words) [] = words
  | [], _ => rfl
  | [w], h => by
    obtain ⟨hne, hns⟩ := h w (List.mem_cons_self w [])
    rw [sepJoin, show w = w ++ ([] : List Char) by simp, pySplitWsChars_word w [] [] hns]
    simp only [pySplitWsChars]
    have : (w.reverse ++ []).isEmpty = false := by
      simp [List.isEmpty_iff]
      exact hne
    rw [this]
    simp
  | w :: w2 :: ws, h => by
    obtain ⟨hne, hns⟩ := h w (List.mem_cons_self w (w2 :: ws))
    rw [sepJoin, pySplitWsChars_word w (' ' :: sepJoin (w2 :: ws)) [] hns]
    simp only [pySplitWsChars]
    rw [show isPySpace ' ' = true from rfl]
    have hemp : (w.reverse ++ []).isEmpty = false := by
      simp [List.isEmpty_iff]
      exact hne
    simp only [hemp, if_true, Bool.false_eq_true, if_false, reduceIte]
    rw [pySplitWsChars_words (w2 :: ws) (fun x hx => h x (List.mem_cons_of_mem w hx))]
    simp

theorem splitOnChars_no_occ (s0 : Char) (srest : List Char) : ∀ (y : List Char),
    (∀ c ∈ y, ¬c = s0) → splitOnChars s0 srest y = [y]
  | [], _ => by rw [splitOnChars_nil]
  | c :: rest, h => by
    rw [splitOnChars_cons]
    have hpre : (s0 :: srest).isPrefixOf (c :: rest) = false := by
      have hne : (s0 == c) = false := by
        simp only [beq_eq_false_iff_ne, ne_eq]
        exact fun hh => h c (List.mem_cons_self c rest) hh.symm
      simp [List.isPrefixOf, hne]
    rw [hpre]
    simp only [Bool.false_eq_true, if_false, reduceIte]
    rw [splitOnChars_no_occ s0 srest rest (fun x hx => h x (List.mem_cons_of_mem c hx))]

theorem splitOnChars_single (s0 : Char) (srest : List Char) : ∀ (x y : List Char),
    (∀ c ∈ x, ¬c = s0) → (∀ c ∈ y, ¬c = s0) →
    splitOnChars s0 srest (x ++ s0 :: (srest ++ y)) = [x, y]
  | [], y, _, hy => by
    rw [List.nil_append, splitOnChars_cons]
    have hpre : (s0 :: srest).isPrefixOf (s0 :: (srest ++ y)) = true := by
      simp only [List.isPrefixOf, beq_self_eq_true, Bool.true_and]
      exact List.isPrefixOf_iff_prefix.mpr (List.prefix_append srest y)
    rw [hpre]
    simp only [if_true, reduceIte]
    rw [List.drop_left, splitOnChars_no_occ s0 srest y hy]
  | c :: xs, y, hx, hy => by
    rw [List.cons_append, splitOnChars_cons]
    have hpre : (s0 :: srest).isPrefixOf (c :: (xs ++ s0 :: (srest ++ y))) = false := by
      simp only [List.isPrefixOf]
      have : (s0 == c) = false := by
        simp only [beq_eq_false_iff_ne, ne_eq]
        exact fun hh => hx c (List.mem_cons_self c xs) hh.symm
      simp [this]
    rw [hpre]
    simp only [Bool.false_eq_true, if_false, reduceIte]
    rw [splitOnChars_single s0 srest xs y (fun a ha => hx a (List.mem_cons_of_mem c ha)) hy]

theorem containsSub_of_append : ∀ (x p y : List Char), containsSub (x ++ (p ++ y)) p = true
  | [], p, y => by
    cases p with
    | nil => cases y <;> rfl
    | cons p0 pt =>
      simp only [List.nil_append, containsSub]
      have hpre : (p0 :: pt).isPrefixOf ((p0 :: pt) ++ y) = true :=
        List.isPrefixOf_iff_prefix.mpr (List.prefix_append _ y)
      simp [hpre]
  | c :: xs, p, y => by
    cases p with
    | nil => rfl
    | cons p0 pt =>
      simp only [List.cons_append, containsSub]
      have hrec := containsSub_of_append xs (p0 :: pt) y
      simp only [List.cons_append] at hrec
      simp [hrec]

theorem isPySpace_sextetChar (n : Nat) : isPySpace (sextetChar n) = false := by
  by_cases h : n < 64
  · exact (by decide : ∀ k : Fin 64, isPySpace (sextetChar k.val) = false) ⟨n, h⟩
  · have hlen : b64Alphabet.length = 64 := by decide
    simp only [sextetChar, List.getD_eq_getElem?_getD]
    rw [List.getElem?_eq_none (by omega)]
    decide

theorem b64EncodeChars_no_space : ∀ (bs : List Nat), ∀ c ∈ b64EncodeChars bs, isPySpace c = false
  | [] => by simp [b64EncodeChars]
  | [b0] => by
    intro c hc
    simp only [b64EncodeChars, List.mem_cons, List.not_mem_nil, or_false] at hc
    rcases hc with h | h | h | h
    · subst h; exact isPySpace_sextetChar _
    · subst h; exact isPySpace_sextetChar _
    · subst h; decide
    · subst h; decide
  | [b0, b1] => by
    intro c hc
    simp only [b64EncodeChars, List.mem_cons, List.not_mem_nil, or_false] at hc
    rcases hc with h | h | h | h
    · subst h; exact isPySpace_sextetChar _
    · subst h; exact isPySpace_sextetChar _
    · subst h; exact isPySpace_sextetChar _
    · subst h; decide
  | b0 :: b1 :: b2 :: rest => by
    intro c hc
    simp only [b64EncodeChars, List.mem_cons] at hc
    rcases hc with h | h | h | h | h
    · subst h; exact isPySpace_sextetChar _
    · subst h; exact isPySpace_sextetChar _
    · subst h; exact isPySpace_sextetChar _
    · subst h; exact isPySpace_sextetChar _
    · exact b64EncodeChars_no_space rest c h

theorem b64EncodeChars_length : ∀ (bs : List Nat), bs.length % 3 = 0 →
    (b64EncodeChars bs).length = bs.length / 3 * 4
  | [], _ => rfl
  | [_], h => by simp at h
  | [_, _], h => by simp at h
  | b0 :: b1 :: b2 :: rest, h => by
    have hr : rest.length % 3 = 0 := by
      simp only [List.length_cons] at h
      omega
    simp only [b64EncodeChars, List.length_cons]
    rw [b64EncodeChars_length rest hr]
    omega

/-- Decode each line separately (as the decoder's payload branch does)
and concatenate the chunks. -/
def decodeLinesConcat : List String → Option (List Nat)
  | [] => some []
  | l :: rest =>
    match b64DecodeChars l.data, decodeLinesConcat rest with
    | some c, some a => some (c ++ a)
    | _, _ => none

theorem dlc_append : ∀ (xs ys : List String),
    decodeLinesConcat (xs ++ ys)
      = match decodeLinesConcat xs, decodeLinesConcat ys with
        | some a, some b => some (a ++ b)
        | _, _ => none
  | [], ys => by
    simp only [List.nil_append, decodeLinesConcat]
    cases decodeLinesConcat ys <;> simp
  | x :: xs, ys => by
    simp only [List.cons_append, decodeLinesConcat]
    rw [show xs.append ys = xs ++ ys from rfl, dlc_append xs ys]
    cases b64DecodeChars x.data <;> cases decodeLinesConcat xs <;> cases decodeLinesConcat ys <;>
      simp [List.append_assoc]

theorem wrapLines_short (w : Nat) (s : List Char) (h1 : s ≠ []) (h2 : s.length ≤ w) :
    wrapLines w s = [String.mk s] := by
  cases s with
  | nil => exact absurd rfl h1
  | cons c rest =>
    rw [wrapLines_cons]
    have ht : List.take w (c :: rest) = c :: rest := List.take_of_length_le h2
    have hd : List.drop (w - 1) rest = [] := List.drop_eq_nil_of_le (by
      simp only [List.length_cons] at h2
      omega)
    rw [ht, hd, wrapLines_nil]

theorem wrapLines_exact (w : Nat) (e1 e2 : List Char) (h : e1.length = w) (hw : 1 ≤ w) :
    wrapLines w (e1 ++ e2) = String.mk e1 :: wrapLines w e2 := by
  cases e1 with
  | nil =>
    simp at h
    omega
  | cons c r =>
    rw [List.cons_append, wrapLines_cons]
    have ht : List.take w (c :: (r ++ e2)) = c :: r := by
      rw [show c :: (r ++ e2) = (c :: r) ++ e2 from rfl, ← h, List.take_left]
    have hr : r.length = w - 1 := by
      simp only [List.length_cons] at h
      omega
    have hd : List.drop (w - 1) (r ++ e2) = e2 := by
      rw [← hr, List.drop_left]
    rw [ht, hd]

theorem dlc_wrapLines_aligned_aux : ∀ (n : Nat) (A : List Nat), A.length ≤ n →
    A.length % 3 = 0 → (∀ b ∈ A, b < 256) →
    decodeLinesConcat (wrapLines 76 (b64EncodeChars A)) = some A := by
  intro n
  induction n with
  | zero =>
    intro A hA h3 hb
    have hnil : A = [] := List.length_eq_zero.mp (by omega)
    subst hnil
    rw [show b64EncodeChars [] = [] from rfl, wrapLines_nil]
    rfl
  | succ n ih =>
    intro A hA h3 hb
    by_cases hle : A.length ≤ 57
    · by_cases hnil : A = []
      · subst hnil
        rw [show b64EncodeChars [] = [] from rfl, wrapLines_nil]
        rfl
      · have henc_len : (b64EncodeChars A).length = A.length / 3 * 4 := b64EncodeChars_length A h3
        have hpos : A.length ≠ 0 := fun hz => hnil (List.length_eq_zero.mp hz)
        have henc_ne : b64EncodeChars A ≠ [] := by
          intro he
          have hl := congrArg List.length he
          rw [henc_len] at hl
          simp at hl
          omega
        rw [wrapLines_short 76 _ henc_ne (by rw [henc_len]; omega)]
        simp only [decodeLinesConcat]
        rw [b64_decode_encode A hb]
        simp
    · have h57 : (A.take 57).length = 57 := by
        simp only [List.length_take]
        omega
      have henc := b64EncodeChars_append (A.take 57) (A.drop 57) (by rw [h57])
      rw [List.take_append_drop] at henc
      have hlen1 : (b64EncodeChars (A.take 57)).length = 76 := by
        rw [b64EncodeChars_length _ (by rw [h57]), h57]
      rw [henc, wrapLines_exact 76 _ _ hlen1 (by omega)]
      simp only [decodeLinesConcat]
      rw [b64_decode_encode (A.take 57) (fun b hb2 => hb b (List.mem_of_mem_take hb2)),
        ih (A.drop 57) (by simp only [List.length_drop]; omega)
          (by simp only [List.length_drop]; omega)
          (fun b hb2 => hb b (List.mem_of_mem_drop hb2))]
      simp [List.take_append_drop]

theorem dlc_wrapLines_aligned (A : List Nat) (h3 : A.length % 3 = 0)
    (hb : ∀ b ∈ A, b < 256) :
    decodeLinesConcat (wrapLines 76 (b64EncodeChars A)) = some A :=
  dlc_wrapLines_aligned_aux A.length A le_rfl h3 hb

theorem dlc_wrapLines_tail (t : List Nat) (hne : t ≠ []) (hlt : t.length < 3)
    (hb : ∀ b ∈ t, b < 256) :
    decodeLinesConcat (wrapLines 76 (b64EncodeChars t)) = some t := by
  have hlen : (b64EncodeChars t).length = 4 := by
    rcases t with _ | ⟨a, _ | ⟨b, _ | ⟨c, r⟩⟩⟩
    · exact absurd rfl hne
    · rfl
    · rfl
    · simp only [List.length_cons] at hlt
      omega
  rw [wrapLines_short 76 _ (by intro he; rw [he] at hlen; simp at hlen) (by omega)]
  simp only [decodeLinesConcat]
  rw [b64_decode_encode t hb]
  simp

/-- Per-line decodability of the chunk-loop output: the decoded chunks of
the emitted lines concatenate to the 3-aligned prefix of the input. -/
theorem b64Stream_foldl_dlc : ∀ (src : List (List Nat)) (lines : List String)
    (buf L : List Nat),
    buf.length < 3 → (∀ b ∈ buf ++ src.flatten, b < 256) →
    decodeLinesConcat lines = some L →
    decodeLinesConcat ((src.foldl (b64StreamStep 76) (lines, buf)).1)
      = some (L ++ (buf ++ src.flatten).take ((buf ++ src.flatten).length / 3 * 3))
  | [], lines, buf, L, hbuf, _, hL => by
    have h0 : (buf ++ ([] : List (List Nat)).flatten).length / 3 * 3 = 0 := by
      simp only [List.flatten_nil, List.append_nil]
      omega
    simp only [List.foldl_nil, h0, List.take_zero, List.append_nil, hL]
  | c :: rest, lines, buf, L, hbuf, hbytes, hL => by
    rw [List.foldl_cons]
    rw [show b64StreamStep 76 (lines, buf) c
        = (let buf1 := buf ++ c
           let tk := buf1.length / 3 * 3
           if tk = 0 then (lines, buf1)
           else (lines ++ wrapLines 76 (b64EncodeChars (buf1.take tk)), buf1.drop tk)) from rfl]
    by_cases htk : (buf ++ c).length / 3 * 3 = 0
    · have hlt : (buf ++ c).length < 3 := by omega
      simp only [htk, reduceIte]
      have hbytes2 : ∀ b ∈ (buf ++ c) ++ rest.flatten, b < 256 := by
        intro b hb
        apply hbytes b
        simp only [List.flatten_cons] at *
        simp only [List.append_assoc] at hb ⊢
        exact hb
      have ih := b64Stream_foldl_dlc rest lines (buf ++ c) L hlt hbytes2 hL
      rw [ih, List.flatten_cons, ← List.append_assoc]
    · simp only [htk, reduceIte]
      set buf1 := buf ++ c with hbuf1
      set tk := buf1.length / 3 * 3 with htkdef
      have htk_le : tk ≤ buf1.length := by omega
      have htk_mod : tk % 3 = 0 := by omega
      have hA_len : (buf1.take tk).length = tk := by
        simp only [List.length_take]
        omega
      have hAmod : (buf1.take tk).length % 3 = 0 := by
        rw [hA_len]
        exact htk_mod
      have hbuf1_bytes : ∀ b ∈ buf1, b < 256 := by
        intro b hb
        apply hbytes b
        simp only [List.flatten_cons, ← List.append_assoc]
        exact List.mem_append.mpr (Or.inl hb)
      have hdlc2 : decodeLinesConcat (lines ++ wrapLines 76 (b64EncodeChars (buf1.take tk)))
          = some (L ++ buf1.take tk) := by
        rw [dlc_append, hL,
          dlc_wrapLines_aligned _ hAmod (fun b hb => hbuf1_bytes b (List.mem_of_mem_take hb))]
      have hdrop_len : (buf1.drop tk).length < 3 := by
        simp only [List.length_drop]
        omega
      have hbytes3 : ∀ b ∈ buf1.drop tk ++ rest.flatten, b < 256 := by
        intro b hb
        rcases List.mem_append.mp hb with h | h
        · exact hbuf1_bytes b (List.mem_of_mem_drop h)
        · apply hbytes b
          simp only [List.flatten_cons, ← List.append_assoc]
          exact List.mem_append.mpr (Or.inr h)
      have ih := b64Stream_foldl_dlc rest
        (lines ++ wrapLines 76 (b64EncodeChars (buf1.take tk)))
        (buf1.drop tk) (L ++ buf1.take tk) hdrop_len hbytes3 hdlc2
      rw [ih]
      have hsplit : (buf ++ (c :: rest).flatten)
          = buf1.take tk ++ (buf1.drop tk ++ rest.flatten) := by
        rw [List.flatten_cons, ← List.append_assoc, ← hbuf1, ← List.append_assoc,
          List.take_append_drop]
      rw [hsplit, take_aligned_append _ _ hAmod]
      simp [List.append_assoc]

/-- Per-line decodability of the whole streamed encoding. -/
theorem b64_stream_dlc (src : List (List Nat)) (hb : ∀ c ∈ src, ∀ b ∈ c, b < 256) :
    decodeLinesConcat (b64_encode_stream src 76) = some src.flatten := by
  have hbytes : ∀ b ∈ ([] : List Nat) ++ src.flatten, b < 256 := by
    intro b hbm
    simp only [List.nil_append] at hbm
    rcases List.mem_flatten.mp hbm with ⟨c, hc, hbc⟩
    exact hb c hc b hbc
  have hfold := b64Stream_foldl_dlc src [] [] [] (by simp) hbytes rfl
  simp only [List.nil_append] at hfold
  obtain ⟨h1, h2, h3⟩ := b64Stream_foldl 76 (by omega) src [] [] (by simp)
  simp only [List.map_nil, List.flatten_nil, List.nil_append] at h2
  rw [b64_encode_stream]
  by_cases hempty : (src.foldl (b64StreamStep 76) ([], [])).2 = []
  · rw [if_pos hempty]
    have hdrop : src.flatten.drop (src.flatten.length / 3 * 3) = [] := by
      rw [← h2]
      exact hempty
    have hlen := congrArg List.length hdrop
    simp only [List.length_drop, List.length_nil] at hlen
    have htake : src.flatten.take (src.flatten.length / 3 * 3) = src.flatten :=
      List.take_of_length_le (by omega)
    rw [hfold, htake]
  · rw [if_neg hempty]
    rw [dlc_append, hfold, h2]
    have htail_lt : (src.flatten.drop (src.flatten.length / 3 * 3)).length < 3 := by
      simp only [List.length_drop]
      omega
    have htail_ne : src.flatten.drop (src.flatten.length / 3 * 3) ≠ [] := by
      rw [← h2]
      exact hempty
    rw [dlc_wrapLines_tail _ htail_ne htail_lt
      (fun b hbm => hbytes b (by simpa using List.mem_of_mem_drop hbm))]
    simp [List.take_append_drop]

theorem setFile_cons_ne (e : String × List Nat) (rest : List (String × List Nat))
    (p : String) (b : List Nat) (h : (e.1 == p) = false) :
    setFile (e :: rest) p b = e :: setFile rest p b := by
  unfold setFile
  simp only [List.any_cons, h, Bool.false_or]
  by_cases ha : (rest.any fun x => x.1 == p) = true
  · simp only [ha, if_true, reduceIte, List.map_cons, h, Bool.false_eq_true, if_false]
  · simp only [ha, Bool.false_eq_true, if_false, reduceIte, List.cons_append]

theorem getFile_cons_ne (e : String × List Nat) (X : List (String × List Nat))
    (p : String) (h : (e.1 == p) = false) : getFile (e :: X) p = getFile X p := by
  unfold getFile
  rw [List.find?_cons_of_neg X (by simp [h])]

theorem getFile_cons_self (p : String) (b : List Nat) (X : List (String × List Nat)) :
    getFile ((p, b) :: X) p = some b := by
  unfold getFile
  rw [List.find?_cons_of_pos X (by simp)]
  rfl

theorem getFile_setFile_self : ∀ (d : List (String × List Nat)) (p : String) (b : List Nat),
    getFile (setFile d p b) p = some b
  | [], p, b => by
    unfold setFile
    simp only [List.any_nil, Bool.false_eq_true, if_false, reduceIte, List.nil_append]
    exact getFile_cons_self p b []
  | e :: rest, p, b => by
    by_cases he : (e.1 == p) = true
    · have hep : e.1 = p := by simpa using he
      unfold setFile
      simp only [List.any_cons, he, Bool.true_or, if_true, reduceIte, List.map_cons, he]
      exact getFile_cons_self p b _
    · rw [setFile_cons_ne e rest p b (by simpa using he),
        getFile_cons_ne e _ p (by simpa using he)]
      exact getFile_setFile_self rest p b

theorem find?_cons_eq (pr : String × List Nat → Bool) (a : String × List Nat)
    (l : List (String × List Nat)) :
    List.find? pr (a :: l) = if pr a = true then some a else List.find? pr l := by
  cases h : pr a <;> simp [List.find?, h]

theorem find?_setkey_map (p q : String) (b : List Nat) (hpq : (p == q) = false) :
    ∀ (xs : List (String × List Nat)),
    (xs.map (fun x => if x.1 == p then (p, b) else x)).find? (fun e => e.1 == q)
      = xs.find? (fun e => e.1 == q)
  | [] => rfl
  | x :: xs => by
    have ih := find?_setkey_map p q b hpq xs
    by_cases hx : (x.1 == p) = true
    · have hxp : x.1 = p := by simpa using hx
      have h1 : (if (x.1 == p) = true then (p, b) else x) = (p, b) := by simp [hx]
      have hxq : (x.1 == q) = false := by rw [hxp]; exact hpq
      rw [List.map_cons, h1, find?_cons_eq (fun e => e.1 == q) (p, b),
        find?_cons_eq (fun e => e.1 == q) x]
      simp only [hxq, hpq, Bool.false_eq_true, if_false, reduceIte]
      exact ih
    · have h1 : (if (x.1 == p) = true then (p, b) else x) = x := by simp [hx]
      rw [List.map_cons, h1, find?_cons_eq (fun e => e.1 == q) x,
        find?_cons_eq (fun e => e.1 == q) x]
      by_cases hxq : (x.1 == q) = true
      · simp only [hxq, if_true, reduceIte]
      · simp only [hxq, Bool.false_eq_true, if_false, reduceIte]
        exact ih

theorem getFile_setFile_ne : ∀ (d : List (String × List Nat)) (p q : String) (b : List Nat),
    (q == p) = false → getFile (setFile d p b) q = getFile d q := by
  intro d p q b h
  have hpq : (p == q) = false := by
    simp only [beq_eq_false_iff_ne, ne_eq] at h ⊢
    exact fun hh => h hh.symm
  unfold setFile
  by_cases ha : (d.any fun e => e.1 == p) = true
  · simp only [ha, if_true, reduceIte]
    unfold getFile
    rw [find?_setkey_map p q b hpq d]
  · simp only [ha, Bool.false_eq_true, if_false, reduceIte]
    induction d with
    | nil =>
      simp only [List.nil_append]
      unfold getFile
      rw [find?_cons_eq (fun e => e.1 == q) (p, b)]
      simp [hpq]
    | cons e rest ihd =>
      simp only [List.any_cons, Bool.or_eq_true, not_or] at ha
      by_cases heq : (e.1 == q) = true
      · rw [List.cons_append]
        unfold getFile
        rw [find?_cons_eq (fun e => e.1 == q) e, find?_cons_eq (fun e => e.1 == q) e]
        simp only [heq, if_true, reduceIte]
      · rw [List.cons_append, getFile_cons_ne e _ q (by simpa using heq),
          getFile_cons_ne e rest q (by simpa using heq)]
        exact ihd ha.2

theorem unpackLines_append (sha : List Nat → String) (sk : Bool) (target : String) :
    ∀ (xs ys : List String) (st : DecodeSt),
    unpackLines sha sk target st (xs ++ ys)
      = match unpackLines sha sk target st xs with
        | (st2, none) => unpackLines sha sk target st2 ys
        | (st2, some e) => (st2, some e)
  | [], ys, st => by simp [unpackLines]
  | x :: xs, ys, st => by
    simp only [List.cons_append, unpackLines]
    cases unpackLine sha sk target st x with
    | ok st2 => exact unpackLines_append sha sk target xs ys st2
    | error e => rfl

theorem head?_append_left (l1 l2 : List Char) (c : Char) (h : l1.head? = some c) :
    (l1 ++ l2).head? = some c := by
  cases l1 with
  | nil => simp at h
  | cons a t =>
    simp at h
    simp [h]

theorem getLast?_append_right (l1 l2 : List Char) (c : Char) (h : l2.getLast? = some c) :
    (l1 ++ l2).getLast? = some c := by
  rw [← List.head?_reverse] at h ⊢
  rw [List.reverse_append]
  exact head?_append_left l2.reverse l1.reverse c h

/-- Strings whose first and last characters are non-whitespace are fixed
by `strip`. -/
theorem pyStrip_concat (a b : String) (c0 : Char) (hc0 : a.data.head? = some c0)
    (h0 : isPySpace c0 = false) (c1 : Char) (hc1 : b.data.getLast? = some c1)
    (h1 : isPySpace c1 = false) :
    pyStrip (a ++ b) = a ++ b := by
  apply pyStrip_eq_self
  · intro c hc
    rw [String.data_append, head?_append_left a.data b.data c0 hc0] at hc
    cases hc
    exact h0
  · intro c hc
    rw [String.data_append, getLast?_append_right a.data b.data c1 hc1] at hc
    cases hc
    exact h1

theorem strDropN_append (a x : String) : strDropN (a ++ x) a.length = x := by
  simp only [strDropN, String.data_append, String.length]
  rw [List.drop_left]

/-- Stripping a single leading space. -/
theorem pyStrip_space_lead (y : String) (c0 : Char) (hc0 : y.data.head? = some c0)
    (h0 : isPySpace c0 = false) (c1 : Char) (hc1 : y.data.getLast? = some c1)
    (h1 : isPySpace c1 = false) :
    pyStrip (" " ++ y) = y := by
  have hchars : pyStripChars ((" " ++ y).data) = y.data := by
    have hexp : (" " ++ y).data = ' ' :: y.data := by
      rw [String.data_append]
      rfl
    rw [hexp]
    unfold pyStripChars
    rw [List.dropWhile_cons, show isPySpace ' ' = true from rfl]
    simp only [if_true, reduceIte]
    have hy := pyStripChars_eq_self y.data
      (fun c hc => by rw [hc0] at hc; cases hc; exact h0)
      (fun c hc => by rw [hc1] at hc; cases hc; exact h1)
    unfold pyStripChars at hy
    exact hy
  show String.mk (pyStripChars ((" " ++ y).data)) = y
  rw [hchars]

/-- The generic fall-through of the decoder loop (claim C10's content):
a stripped line that is non-blank, not a meta line, not a record
boundary, not a header line, and not a payload line arriving while a
file is open leaves the state untouched and raises nothing. -/
theorem unpackLine_fallthrough (sha : List Nat → String) (sk : Bool) (target : String)
    (st : DecodeSt) (raw : String)
    (h0 : pyStrip raw ≠ "")
    (h1 : strStarts (pyStrip raw) META_TAG = false)
    (h2 : pyStrip raw ≠ RECORD_BEGIN_LINE)
    (h3 : pyStrip raw ≠ RECORD_END_LINE)
    (h4 : strStarts (pyStrip raw) HEADER_TAG = false)
    (h5 : strStarts (pyStrip raw) PAYLOAD_TAG = false ∨ st.current = none) :
    unpackLine sha sk target st raw = .ok st := by
  unfold unpackLine
  simp only []
  rw [if_neg h0, if_neg (by simp [h1]), if_neg h2, if_neg h3, if_neg (by simp [h4])]
  have h5' : ¬(strStarts (pyStrip raw) PAYLOAD_TAG && st.current.isSome) = true := by
    rcases h5 with h | h
    · simp [h]
    · simp [h]
  rw [if_neg h5']

/-- The `_META_PREFIX` branch of the line loop. -/
theorem unpackLine_meta_branch (sha : List Nat → String) (sk : Bool) (target : String)
    (st : DecodeSt) (raw : String)
    (h0 : pyStrip raw ≠ "")
    (h1 : strStarts (pyStrip raw) META_TAG = true) :
    unpackLine sha sk target st raw
      = match metaLineUpdate (pyStrip raw) st.root_map with
        | .ok m => .ok { st with root_map := m }
        | .error e => .error e := by
  unfold unpackLine
  simp only []
  rw [if_neg h0, if_pos h1]

/-- The `_HEADER_PREFIX` branch of the line loop. -/
theorem unpackLine_header_branch (sha : List Nat → String) (sk : Bool) (target : String)
    (st : DecodeSt) (raw : String)
    (h0 : pyStrip raw ≠ "")
    (h1 : strStarts (pyStrip raw) META_TAG = false)
    (h2 : pyStrip raw ≠ RECORD_BEGIN_LINE)
    (h3 : pyStrip raw ≠ RECORD_END_LINE)
    (h4 : strStarts (pyStrip raw) HEADER_TAG = true) :
    unpackLine sha sk target st raw
      = (let kv := parseKV (pyStrip (strDropN (pyStrip raw) HEADER_TAG.length))
         let st2 :=
           match kvGet kv "root_id", kvGet kv "rel" with
           | some rid, some rel =>
             let root_path_str := mapGet st.root_map rid ("unknown_" ++ rid)
             let out_path := pathlibJoin (pathlibJoin target (sanitize_root root_path_str)) rel
             { st with current := some out_path, actual_size := 0,
                       disk := setFile st.disk out_path [] }
           | _, _ => st
         match kvGet kv "sha256" with
         | some hsha =>
           match (match kvGet kv "size" with
                  | none => some 0
                  | some sz => pyInt sz) with
           | some n => .ok { st2 with expected_sha := some hsha, expected_size := n }
           | none => .error .valueError
         | none => .ok st2) := by
  unfold unpackLine
  simp only []
  rw [if_neg h0, if_neg (by simp [h1]), if_neg h2, if_neg h3, if_pos h4]

/-- The `_PAYLOAD_PREFIX` branch of the line loop, with a file open. -/
theorem unpackLine_payload_branch (sha : List Nat → String) (sk : Bool) (target : String)
    (st : DecodeSt) (raw : String) (p : String)
    (h0 : pyStrip raw ≠ "")
    (h1 : strStarts (pyStrip raw) META_TAG = false)
    (h2 : pyStrip raw ≠ RECORD_BEGIN_LINE)
    (h3 : pyStrip raw ≠ RECORD_END_LINE)
    (h4 : strStarts (pyStrip raw) HEADER_TAG = false)
    (h5 : strStarts (pyStrip raw) PAYLOAD_TAG = true)
    (hcur : st.current = some p) :
    unpackLine sha sk target st raw
      = match b64DecodeChars (pyStrip (strDropN (pyStrip raw) PAYLOAD_TAG.length)).data with
        | some chunk =>
          .ok { st with disk := setFile st.disk p ((getFile st.disk p).getD [] ++ chunk),
                        actual_size := st.actual_size + chunk.length }
        | none => .error .binasciiError := by
  unfold unpackLine
  simp only []
  rw [if_neg h0, if_neg (by simp [h1]), if_neg h2, if_neg h3, if_neg (by simp [h4])]
  rw [if_pos (show (strStarts (pyStrip raw) PAYLOAD_TAG && st.current.isSome) = true from
    by simp [h5, hcur])]
  rw [hcur]

theorem str_ne_empty_of_head (a : String) (c : Char) (h : a.data.head? = some c) :
    a ≠ "" := by
  intro he
  rw [he] at h
  simp at h

theorem getLast?_of_ne_nil (l : List Char) (h : l ≠ []) : ∃ c, l.getLast? = some c := by
  cases hr : l.reverse with
  | nil =>
    exfalso
    exact h (by simpa using congrArg List.reverse hr)
  | cons c t =>
    refine ⟨c, ?_⟩
    rw [← List.head?_reverse, hr]
    rfl

/-- `parseKV` recovers space-joined `key=value` words: nonempty keys
without `=` or whitespace, values without whitespace. -/
theorem parseKV_words (ws : List (String × String))
    (h : ∀ w ∈ ws, w.1.data ≠ [] ∧ '=' ∉ w.1.data ∧ (∀ c ∈ w.1.data, isPySpace c = false)
        ∧ (∀ c ∈ w.2.data, isPySpace c = false)) :
    parseKV (String.mk (sepJoin (ws.map (fun w => w.1.data ++ '=' :: w.2.data)))) = ws := by
  unfold parseKV pySplitWs
  rw [show (String.mk (sepJoin (ws.map (fun w => w.1.data ++ '=' :: w.2.data)))).data
      = sepJoin (ws.map (fun w => w.1.data ++ '=' :: w.2.data)) from rfl]
  rw [pySplitWsChars_words (ws.map (fun w => w.1.data ++ '=' :: w.2.data)) ?hok]
  case hok =>
    intro w hw
    rcases List.mem_map.mp hw with ⟨p, hp, rfl⟩
    obtain ⟨hne, _, hk, hv⟩ := h p hp
    constructor
    · intro hc
      cases hkd : p.1.data with
      | nil => exact hne hkd
      | cons a t => simp [hkd] at hc
    · intro c hc
      rcases List.mem_append.mp hc with h2 | h2
      · exact hk c h2
      · rcases List.mem_cons.mp h2 with h3 | h3
        · subst h3
          rfl
        · exact hv c h3
  induction ws with
  | nil => rfl
  | cons p ps ih =>
    obtain ⟨hne, heq, hk, hv⟩ := h p (List.mem_cons_self p ps)
    simp only [List.map_cons, List.filterMap_cons]
    rw [splitFirstEq_spec p.1.data p.2.data heq]
    simp only [Option.map_some']
    rw [ih (fun w hw => h w (List.mem_cons_of_mem p hw))]

theorem strApp_assoc (a b c : String) : a ++ b ++ c = a ++ (b ++ c) := by
  apply String.ext
  simp [String.data_append, List.append_assoc]

/-- Characters of an occurring substring occur in the string. -/
theorem containsSub_mem : ∀ (y p : List Char), containsSub y p = true → ∀ c ∈ p, c ∈ y := by
  intro y
  induction y with
  | nil =>
    intro p h c hc
    cases p with
    | nil => simp at hc
    | cons a t => simp [containsSub] at h
  | cons a t ih =>
    intro p h c hc
    cases p with
    | nil => simp at hc
    | cons p0 pt =>
      simp only [containsSub, Bool.or_eq_true] at h
      rcases h with h | h
      · have hpre := List.isPrefixOf_iff_prefix.mp h
        exact hpre.subset hc
      · exact List.mem_cons_of_mem a (ih (p0 :: pt) h c hc)

/-- A leading separator occurrence splits off an empty first segment. -/
theorem splitOnChars_lead (s0 : Char) (srest y : List Char) :
    splitOnChars s0 srest ((s0 :: srest) ++ y) = [] :: splitOnChars s0 srest y := by
  rw [List.cons_append, splitOnChars_cons]
  have hpre : (s0 :: srest).isPrefixOf (s0 :: (srest ++ y)) = true := by
    simp only [List.isPrefixOf, beq_self_eq_true, Bool.true_and]
    exact List.isPrefixOf_iff_prefix.mpr (List.prefix_append srest y)
  rw [hpre]
  simp [List.drop_left]

/-- No substring occurrence of the separator: the split is the whole
string. -/
theorem splitOnChars_no_sub (s0 : Char) (srest : List Char) : ∀ (y : List Char),
    containsSub y (s0 :: srest) = false → splitOnChars s0 srest y = [y]
  | [], _ => by rw [splitOnChars_nil]
  | c :: rest, h => by
    simp only [containsSub, Bool.or_eq_false_iff] at h
    rw [splitOnChars_cons, h.1]
    simp only [Bool.false_eq_true, if_false]
    rw [splitOnChars_no_sub s0 srest rest h.2]

/-- The opening delimiter is a no-op for the decoder. -/
theorem unpackLine_open_delim (sha : List Nat → String) (sk : Bool) (target : String)
    (st : DecodeSt) : unpackLine sha sk target st OPEN_DELIM = .ok st :=
  unpackLine_fallthrough sha sk target st OPEN_DELIM (by decide) (by decide) (by decide)
    (by decide) (by decide) (.inl (by decide))

/-- The closing delimiter is a no-op for the decoder. -/
theorem unpackLine_close_delim (sha : List Nat → String) (sk : Bool) (target : String)
    (st : DecodeSt) : unpackLine sha sk target st CLOSE_DELIM = .ok st :=
  unpackLine_fallthrough sha sk target st CLOSE_DELIM (by decide) (by decide) (by decide)
    (by decide) (by decide) (.inl (by decide))

/-- The version meta line does not touch the state (no `root_id=` in
it). -/
theorem unpackLine_version_meta (sha : List Nat → String) (sk : Bool) (target : String)
    (st : DecodeSt) :
    unpackLine sha sk target st (META_TAG ++ " version=" ++ String.mk (natChars VERSION))
      = .ok st := by
  rw [show String.mk (natChars VERSION) = "2" from by decide]
  unfold unpackLine
  simp only []
  rw [show pyStrip (META_TAG ++ " version=" ++ "2")
      = META_TAG ++ " version=" ++ "2" from by decide]
  rw [if_neg (show ¬(META_TAG ++ " version=" ++ "2" = "") from by decide)]
  rw [if_pos (show strStarts (META_TAG ++ " version=" ++ "2") META_TAG = true from by decide)]
  rw [show metaLineUpdate (META_TAG ++ " version=" ++ "2") st.root_map
      = .ok st.root_map from by
    unfold metaLineUpdate
    rw [if_neg (show ¬((strContains (META_TAG ++ " version=" ++ "2")
        "root_id=" && strContains (META_TAG ++ " version=" ++ "2")
        "root_posix=") = true) from by decide)]]

/-- `RECORD_BEGIN` with no file open is a no-op. -/
theorem unpackLine_begin_clean (sha : List Nat → String) (sk : Bool) (target : String)
    (st : DecodeSt) (h : st.current = none) :
    unpackLine sha sk target st RECORD_BEGIN_LINE = .ok st := by
  unfold unpackLine
  simp only []
  rw [show pyStrip RECORD_BEGIN_LINE = RECORD_BEGIN_LINE from by decide]
  rw [if_neg (show ¬(RECORD_BEGIN_LINE = "") from by decide)]
  rw [if_neg (show ¬(strStarts RECORD_BEGIN_LINE META_TAG = true) from by decide)]
  rw [if_pos (show RECORD_BEGIN_LINE = RECORD_BEGIN_LINE from rfl)]
  unfold close_current_file
  rw [h]

/-- `RECORD_END` closes the open file and bumps the record count. -/
theorem unpackLine_end_eq (sha : List Nat → String) (sk : Bool) (target : String)
    (st : DecodeSt) :
    unpackLine sha sk target st RECORD_END_LINE
      = match close_current_file sha sk st with
        | .ok st2 => .ok { st2 with file_count := st2.file_count + 1 }
        | .error e => .error e := by
  unfold unpackLine
  simp only []
  rw [show pyStrip RECORD_END_LINE = RECORD_END_LINE from by decide]
  rw [if_neg (show ¬(RECORD_END_LINE = "") from by decide)]
  rw [if_neg (show ¬(strStarts RECORD_END_LINE META_TAG = true) from by decide)]
  rw [if_neg (show ¬(RECORD_END_LINE = RECORD_BEGIN_LINE) from by decide)]
  rw [if_pos (show RECORD_END_LINE = RECORD_END_LINE from rfl)]

theorem strContains_mid (a b c : String) : strContains (a ++ (b ++ c)) b = true := by
  show containsSub (a ++ (b ++ c)).data b.data = true
  simp only [String.data_append]
  exact containsSub_of_append a.data b.data c.data

/-- A root registry meta line registers `rid → posix` in the root map
and changes nothing else, provided id and path carry no whitespace and
the id does not itself contain the `root_id=` tag. -/
theorem unpackLine_root_meta (sha : List Nat → String) (sk : Bool) (target : String)
    (st : DecodeSt) (rid posix : String)
    (hrne : rid.data ≠ [])
    (hrws : ∀ c ∈ rid.data, isPySpace c = false)
    (hrsub : containsSub rid.data ("root_id=" : String).data = false)
    (hpne : posix.data ≠ [])
    (hpws : ∀ c ∈ posix.data, isPySpace c = false) :
    unpackLine sha sk target st
        (META_TAG ++ (" root_id=" ++ (rid ++ (" root_posix=" ++ posix))))
      = .ok { st with root_map := mapSet st.root_map rid posix } := by
  obtain ⟨cp, hcp⟩ := getLast?_of_ne_nil posix.data hpne
  have hcpns : isPySpace cp = false := hpws cp (mem_of_getLast?_eq _ _ hcp)
  have hXlast : ((" root_id=" ++ (rid ++ (" root_posix=" ++ posix))) : String).data.getLast?
      = some cp := by
    simp only [String.data_append]
    exact getLast?_append_right _ _ _ (getLast?_append_right _ _ _
      (getLast?_append_right _ _ _ hcp))
  have hstrip : pyStrip (META_TAG ++ (" root_id=" ++ (rid ++ (" root_posix=" ++ posix))))
      = META_TAG ++ (" root_id=" ++ (rid ++ (" root_posix=" ++ posix))) :=
    pyStrip_concat _ _ '»' (by decide) (by decide) cp hXlast hcpns
  have hne : (META_TAG ++ (" root_id=" ++ (rid ++ (" root_posix=" ++ posix)))) ≠ "" := by
    apply str_ne_empty_of_head _ '»'
    simp only [String.data_append]
    exact head?_append_left _ _ _ (by decide)
  have hmeta : strStarts (META_TAG ++ (" root_id=" ++ (rid ++ (" root_posix=" ++ posix))))
      META_TAG = true := strStarts_append_self _ _
  have hrid_split : ("root_id=" : String).data = 'r' :: ("oot_id=" : String).data := by decide
  have hupdate : metaLineUpdate
        (META_TAG ++ (" root_id=" ++ (rid ++ (" root_posix=" ++ posix)))) st.root_map
      = .ok (mapSet st.root_map rid posix) := by
    have hc1 : strContains (META_TAG ++ (" root_id=" ++ (rid ++ (" root_posix=" ++ posix))))
        "root_id=" = true := by
      rw [show META_TAG ++ (" root_id=" ++ (rid ++ (" root_posix=" ++ posix)))
          = (META_TAG ++ " ") ++ ("root_id=" ++ (rid ++ (" root_posix=" ++ posix))) from by
        rw [show (" root_id=" : String) = " " ++ "root_id=" from by decide,
          strApp_assoc " " "root_id=" (rid ++ (" root_posix=" ++ posix)),
          strApp_assoc META_TAG " " ("root_id=" ++ (rid ++ (" root_posix=" ++ posix)))]]
      exact strContains_mid _ _ _
    have hc2 : strContains (META_TAG ++ (" root_id=" ++ (rid ++ (" root_posix=" ++ posix))))
        "root_posix=" = true := by
      rw [show META_TAG ++ (" root_id=" ++ (rid ++ (" root_posix=" ++ posix)))
          = (META_TAG ++ (" root_id=" ++ (rid ++ " "))) ++ ("root_posix=" ++ posix) from by
        rw [show (" root_posix=" : String) = " " ++ "root_posix=" from by decide,
          strApp_assoc " " "root_posix=" posix]
        rw [← strApp_assoc rid " " ("root_posix=" ++ posix)]
        rw [← strApp_assoc (" root_id=" : String) (rid ++ " ") ("root_posix=" ++ posix)]
        rw [← strApp_assoc META_TAG (" root_id=" ++ (rid ++ " ")) ("root_posix=" ++ posix)]]
      exact strContains_mid _ _ _
    unfold metaLineUpdate
    simp only []
    rw [if_pos (by rw [hc1, hc2]; rfl)]
    rw [strDropN_append META_TAG (" root_id=" ++ (rid ++ (" root_posix=" ++ posix)))]
    have hy : pyStrip (" root_id=" ++ (rid ++ (" root_posix=" ++ posix)))
        = "root_id=" ++ (rid ++ (" root_posix=" ++ posix)) := by
      rw [show (" root_id=" : String) = " " ++ "root_id=" from by decide,
        strApp_assoc " " "root_id=" (rid ++ (" root_posix=" ++ posix))]
      apply pyStrip_space_lead _ 'r'
      · simp only [String.data_append]
        exact head?_append_left _ _ _ (by decide)
      · rfl
      · simp only [String.data_append]
        exact getLast?_append_right _ _ _ (getLast?_append_right _ _ _
          (getLast?_append_right _ _ _ hcp))
      · exact hcpns
    rw [hy]
    have hps : pySplit ("root_id=" ++ (rid ++ (" root_posix=" ++ posix))) " root_posix="
        = [String.mk (("root_id=" : String).data ++ rid.data), posix] := by
      show (splitOnChars ' ' ("root_posix=" : String).data
          ("root_id=" ++ (rid ++ (" root_posix=" ++ posix))).data).map String.mk
        = [String.mk (("root_id=" : String).data ++ rid.data), posix]
      have harg : ("root_id=" ++ (rid ++ (" root_posix=" ++ posix))).data
          = (("root_id=" : String).data ++ rid.data)
            ++ ' ' :: (("root_posix=" : String).data ++ posix.data) := by
        rw [show (" root_posix=" : String) = " " ++ "root_posix=" from by decide]
        simp [String.data_append, List.append_assoc]
      rw [harg]
      rw [splitOnChars_single ' ' ("root_posix=" : String).data
        (("root_id=" : String).data ++ rid.data) posix.data ?hx ?hy2]
      · rfl
      case hx =>
        intro c hc
        rcases List.mem_append.mp hc with h | h
        · exact (show ∀ c ∈ ("root_id=" : String).data, ¬c = ' ' from by decide) c h
        · intro he
          have := hrws c h
          rw [he] at this
          simp [isPySpace] at this
      case hy2 =>
        intro c h he
        have := hpws c h
        rw [he] at this
        simp [isPySpace] at this
    rw [hps]
    simp only []
    have hps2 : pySplit (String.mk (("root_id=" : String).data ++ rid.data)) "root_id="
        = ["", rid] := by
      show (splitOnChars 'r' ("oot_id=" : String).data
          (("root_id=" : String).data ++ rid.data)).map String.mk = ["", rid]
      rw [hrid_split, splitOnChars_lead 'r' ("oot_id=" : String).data rid.data,
        splitOnChars_no_sub 'r' ("oot_id=" : String).data rid.data (hrid_split ▸ hrsub)]
      rfl
    rw [hps2]
    simp only []
    rw [show pyStrip rid = rid from pyStrip_eq_self rid
      (fun c hc => hrws c (mem_of_head?_eq _ _ hc))
      (fun c hc => hrws c (mem_of_getLast?_eq _ _ hc))]
    rw [show pyStrip posix = posix from pyStrip_eq_self posix
      (fun c hc => hpws c (mem_of_head?_eq _ _ hc))
      (fun c hc => hpws c (mem_of_getLast?_eq _ _ hc))]
  rw [unpackLine_meta_branch sha sk target st _ (by rw [hstrip]; exact hne)
    (by rw [hstrip]; exact hmeta)]
  rw [hstrip, hupdate]

/-- A file-info header line (no `sha256=` key) opens the output file at
`target / sanitized-root / rel`, resets the decoded byte counter and
truncates the file on disk; the declared checksum/size are untouched. -/
theorem unpackLine_header_info (sha : List Nat → String) (sk : Bool) (target : String)
    (st : DecodeSt) (rid rel full : String)
    (hrid_ne : rid.data ≠ []) (hrid : ∀ c ∈ rid.data, isPySpace c = false)
    (hrel_ne : rel.data ≠ []) (hrel : ∀ c ∈ rel.data, isPySpace c = false)
    (hfull : ∀ c ∈ full.data, isPySpace c = false) :
    unpackLine sha sk target st
        (HEADER_TAG ++ (" " ++ ("root_id=" ++ (rid ++ (" rel=" ++ (rel ++
          (" src_full_posix=" ++ (full ++ " encoding=b64"))))))))
      = .ok { st with
          current := some (pathlibJoin (pathlibJoin target
            (sanitize_root (mapGet st.root_map rid ("unknown_" ++ rid)))) rel),
          actual_size := 0,
          disk := setFile st.disk (pathlibJoin (pathlibJoin target
            (sanitize_root (mapGet st.root_map rid ("unknown_" ++ rid)))) rel) [] } := by
  have hzlast : (("root_id=" ++ (rid ++ (" rel=" ++ (rel ++
        (" src_full_posix=" ++ (full ++ " encoding=b64")))))) : String).data.getLast?
      = some '4' := by
    simp only [String.data_append]
    exact getLast?_append_right _ _ _ (getLast?_append_right _ _ _
      (getLast?_append_right _ _ _ (getLast?_append_right _ _ _
        (getLast?_append_right _ _ _ (getLast?_append_right _ _ _ (by decide))))))
  have hstrip : pyStrip (HEADER_TAG ++ (" " ++ ("root_id=" ++ (rid ++ (" rel=" ++ (rel ++
        (" src_full_posix=" ++ (full ++ " encoding=b64"))))))))
      = HEADER_TAG ++ (" " ++ ("root_id=" ++ (rid ++ (" rel=" ++ (rel ++
        (" src_full_posix=" ++ (full ++ " encoding=b64"))))))) := by
    apply pyStrip_concat _ _ '»' (by decide) (by decide) '4'
    · simp only [String.data_append]
      exact getLast?_append_right _ _ _ (getLast?_append_right _ _ _
        (getLast?_append_right _ _ _ (getLast?_append_right _ _ _
          (getLast?_append_right _ _ _ (getLast?_append_right _ _ _
            (getLast?_append_right _ _ _ (by decide)))))))
    · decide
  have h0 : (HEADER_TAG ++ (" " ++ ("root_id=" ++ (rid ++ (" rel=" ++ (rel ++
        (" src_full_posix=" ++ (full ++ " encoding=b64")))))))) ≠ "" := by
    apply str_ne_empty_of_head _ '»'
    simp only [String.data_append]
    exact head?_append_left _ _ _ (by decide)
  have h1 : strStarts (HEADER_TAG ++ (" " ++ ("root_id=" ++ (rid ++ (" rel=" ++ (rel ++
        (" src_full_posix=" ++ (full ++ " encoding=b64")))))))) META_TAG = false := by
    rw [strStarts_append_left _ _ _ (by decide)]
    decide
  have h4 : strStarts (HEADER_TAG ++ (" " ++ ("root_id=" ++ (rid ++ (" rel=" ++ (rel ++
        (" src_full_posix=" ++ (full ++ " encoding=b64")))))))) HEADER_TAG = true :=
    strStarts_append_self _ _
  rw [unpackLine_header_branch sha sk target st _
    (by rw [hstrip]; exact h0)
    (by rw [hstrip]; exact h1)
    (by rw [hstrip]; exact append_ne_of_not_starts _ _ _ (by decide))
    (by rw [hstrip]; exact append_ne_of_not_starts _ _ _ (by decide))
    (by rw [hstrip]; exact h4)]
  rw [hstrip]
  rw [strDropN_append HEADER_TAG (" " ++ ("root_id=" ++ (rid ++ (" rel=" ++ (rel ++
    (" src_full_posix=" ++ (full ++ " encoding=b64")))))))]
  rw [show pyStrip (" " ++ ("root_id=" ++ (rid ++ (" rel=" ++ (rel ++
      (" src_full_posix=" ++ (full ++ " encoding=b64")))))))
      = "root_id=" ++ (rid ++ (" rel=" ++ (rel ++
        (" src_full_posix=" ++ (full ++ " encoding=b64"))))) from by
    apply pyStrip_space_lead _ 'r' ?hh (by decide) '4' hzlast (by decide)
    case hh =>
      simp only [String.data_append]
      exact head?_append_left _ _ _ (by decide)]
  rw [show ("root_id=" ++ (rid ++ (" rel=" ++ (rel ++
      (" src_full_posix=" ++ (full ++ " encoding=b64"))))) : String)
      = String.mk (sepJoin ([("root_id", rid), ("rel", rel), ("src_full_posix", full),
          ("encoding", "b64")].map (fun w => w.1.data ++ '=' :: w.2.data))) from by
    apply String.ext
    simp [sepJoin, String.data_append, List.append_assoc]]
  rw [parseKV_words [("root_id", rid), ("rel", rel), ("src_full_posix", full),
    ("encoding", "b64")] ?hws]
  case hws =>
    intro w hw
    simp only [List.mem_cons, List.not_mem_nil, or_false] at hw
    rcases hw with rfl | rfl | rfl | rfl
    · exact ⟨by show ("root_id" : String).data ≠ []; decide,
        by show '=' ∉ ("root_id" : String).data; decide,
        by show ∀ c ∈ ("root_id" : String).data, isPySpace c = false; decide, hrid⟩
    · exact ⟨by show ("rel" : String).data ≠ []; decide,
        by show '=' ∉ ("rel" : String).data; decide,
        by show ∀ c ∈ ("rel" : String).data, isPySpace c = false; decide, hrel⟩
    · exact ⟨by show ("src_full_posix" : String).data ≠ []; decide,
        by show '=' ∉ ("src_full_posix" : String).data; decide,
        by show ∀ c ∈ ("src_full_posix" : String).data, isPySpace c = false; decide, hfull⟩
    · exact ⟨by show ("encoding" : String).data ≠ []; decide,
        by show '=' ∉ ("encoding" : String).data; decide,
        by show ∀ c ∈ ("encoding" : String).data, isPySpace c = false; decide,
        by show ∀ c ∈ ("b64" : String).data, isPySpace c = false; decide⟩
  simp only []
  rw [show kvGet [("root_id", rid), ("rel", rel), ("src_full_posix", full),
      ("encoding", "b64")] "root_id" = some rid from by
    simp [kvGet, find?_cons_eq]]
  rw [show kvGet [("root_id", rid), ("rel", rel), ("src_full_posix", full),
      ("encoding", "b64")] "rel" = some rel from by
    simp [kvGet, find?_cons_eq]]
  rw [show kvGet [("root_id", rid), ("rel", rel), ("src_full_posix", full),
      ("encoding", "b64")] "sha256" = none from by
    simp [kvGet, find?_cons_eq]]

/-- A size/checksum header line (no `root_id=`/`rel=` pair) records the
declared size and checksum without touching the open file. -/
theorem unpackLine_header_size (sha : List Nat → String) (sk : Bool) (target : String)
    (st : DecodeSt) (n : Nat) (shaStr : String)
    (hsne : shaStr.data ≠ []) (hsws : ∀ c ∈ shaStr.data, isPySpace c = false) :
    unpackLine sha sk target st
        (HEADER_TAG ++ (" " ++ ("size=" ++ (String.mk (natChars n) ++ (" sha256=" ++ shaStr)))))
      = .ok { st with expected_sha := some shaStr, expected_size := n } := by
  obtain ⟨cp, hcp⟩ := getLast?_of_ne_nil shaStr.data hsne
  have hcpns : isPySpace cp = false := hsws cp (mem_of_getLast?_eq _ _ hcp)
  have hzlast : (("size=" ++ (String.mk (natChars n) ++ (" sha256=" ++ shaStr))) : String).data.getLast?
      = some cp := by
    simp only [String.data_append]
    exact getLast?_append_right _ _ _ (getLast?_append_right _ _ _
      (getLast?_append_right _ _ _ hcp))
  have hstrip : pyStrip (HEADER_TAG ++ (" " ++ ("size=" ++ (String.mk (natChars n) ++
        (" sha256=" ++ shaStr)))))
      = HEADER_TAG ++ (" " ++ ("size=" ++ (String.mk (natChars n) ++ (" sha256=" ++ shaStr)))) := by
    apply pyStrip_concat _ _ '»' (by decide) (by decide) cp
    · simp only [String.data_append]
      exact getLast?_append_right _ _ _ (getLast?_append_right _ _ _
        (getLast?_append_right _ _ _ (getLast?_append_right _ _ _ hcp)))
    · exact hcpns
  have h0 : (HEADER_TAG ++ (" " ++ ("size=" ++ (String.mk (natChars n) ++
        (" sha256=" ++ shaStr))))) ≠ "" := by
    apply str_ne_empty_of_head _ '»'
    simp only [String.data_append]
    exact head?_append_left _ _ _ (by decide)
  have h1 : strStarts (HEADER_TAG ++ (" " ++ ("size=" ++ (String.mk (natChars n) ++
        (" sha256=" ++ shaStr))))) META_TAG = false := by
    rw [strStarts_append_left _ _ _ (by decide)]
    decide
  have h4 : strStarts (HEADER_TAG ++ (" " ++ ("size=" ++ (String.mk (natChars n) ++
        (" sha256=" ++ shaStr))))) HEADER_TAG = true :=
    strStarts_append_self _ _
  rw [unpackLine_header_branch sha sk target st _
    (by rw [hstrip]; exact h0)
    (by rw [hstrip]; exact h1)
    (by rw [hstrip]; exact append_ne_of_not_starts _ _ _ (by decide))
    (by rw [hstrip]; exact append_ne_of_not_starts _ _ _ (by decide))
    (by rw [hstrip]; exact h4)]
  rw [hstrip]
  rw [strDropN_append HEADER_TAG (" " ++ ("size=" ++ (String.mk (natChars n) ++
    (" sha256=" ++ shaStr))))]
  rw [show pyStrip (" " ++ ("size=" ++ (String.mk (natChars n) ++ (" sha256=" ++ shaStr))))
      = "size=" ++ (String.mk (natChars n) ++ (" sha256=" ++ shaStr)) from by
    apply pyStrip_space_lead _ 's' ?hh (by decide) cp hzlast hcpns
    case hh =>
      simp only [String.data_append]
      exact head?_append_left _ _ _ (by decide)]
  rw [show ("size=" ++ (String.mk (natChars n) ++ (" sha256=" ++ shaStr)) : String)
      = String.mk (sepJoin ([("size", String.mk (natChars n)), ("sha256", shaStr)].map
          (fun w => w.1.data ++ '=' :: w.2.data))) from by
    apply String.ext
    simp [sepJoin, String.data_append, List.append_assoc]]
  rw [parseKV_words [("size", String.mk (natChars n)), ("sha256", shaStr)] ?hws]
  case hws =>
    intro w hw
    simp only [List.mem_cons, List.not_mem_nil, or_false] at hw
    rcases hw with rfl | rfl
    · refine ⟨by show ("size" : String).data ≠ []; decide,
        by show '=' ∉ ("size" : String).data; decide,
        by show ∀ c ∈ ("size" : String).data, isPySpace c = false; decide, ?_⟩
      show ∀ c ∈ natChars n, isPySpace c = false
      exact fun c hc => digit_not_space c (natChars_all_digits n c hc)
    · exact ⟨by show ("sha256" : String).data ≠ []; decide,
        by show '=' ∉ ("sha256" : String).data; decide,
        by show ∀ c ∈ ("sha256" : String).data, isPySpace c = false; decide, hsws⟩
  simp only []
  rw [show kvGet [("size", String.mk (natChars n)), ("sha256", shaStr)] "root_id" = none from by
    simp [kvGet, find?_cons_eq]]
  rw [show kvGet [("size", String.mk (natChars n)), ("sha256", shaStr)] "sha256"
      = some shaStr from by
    simp [kvGet, find?_cons_eq]]
  rw [show kvGet [("size", String.mk (natChars n)), ("sha256", shaStr)] "size"
      = some (String.mk (natChars n)) from by
    simp [kvGet, find?_cons_eq]]
  simp only []
  rw [pyInt_natChars n]

/-- A payload line with a file open: decode the base64 text and append
the bytes to the open file. -/
theorem unpackLine_payload (sha : List Nat → String) (sk : Bool) (target : String)
    (st : DecodeSt) (p : String) (l : String)
    (hcur : st.current = some p)
    (hlne : l.data ≠ []) (hlws : ∀ c ∈ l.data, isPySpace c = false) :
    unpackLine sha sk target st (PAYLOAD_TAG ++ (" " ++ l))
      = match b64DecodeChars l.data with
        | some chunk =>
          .ok { st with disk := setFile st.disk p ((getFile st.disk p).getD [] ++ chunk),
                        actual_size := st.actual_size + chunk.length }
        | none => .error .binasciiError := by
  obtain ⟨cp, hcp⟩ := getLast?_of_ne_nil l.data hlne
  have hcpns : isPySpace cp = false := hlws cp (mem_of_getLast?_eq _ _ hcp)
  obtain ⟨c0, hc0⟩ : ∃ c, l.data.head? = some c := by
    cases hl : l.data with
    | nil => exact absurd hl hlne
    | cons a t => exact ⟨a, rfl⟩
  have hc0ns : isPySpace c0 = false := hlws c0 (mem_of_head?_eq _ _ hc0)
  have hstrip : pyStrip (PAYLOAD_TAG ++ (" " ++ l)) = PAYLOAD_TAG ++ (" " ++ l) := by
    apply pyStrip_concat _ _ '»' (by decide) (by decide) cp
    · simp only [String.data_append]
      exact getLast?_append_right _ _ _ hcp
    · exact hcpns
  have h0 : (PAYLOAD_TAG ++ (" " ++ l)) ≠ "" := by
    apply str_ne_empty_of_head _ '»'
    simp only [String.data_append]
    exact head?_append_left _ _ _ (by decide)
  have h1 : strStarts (PAYLOAD_TAG ++ (" " ++ l)) META_TAG = false := by
    rw [strStarts_append_left _ _ _ (by decide)]
    decide
  have h4 : strStarts (PAYLOAD_TAG ++ (" " ++ l)) HEADER_TAG = false := by
    rw [strStarts_append_left _ _ _ (by decide)]
    decide
  have h5 : strStarts (PAYLOAD_TAG ++ (" " ++ l)) PAYLOAD_TAG = true :=
    strStarts_append_self _ _
  rw [unpackLine_payload_branch sha sk target st _ p
    (by rw [hstrip]; exact h0)
    (by rw [hstrip]; exact h1)
    (by rw [hstrip]; exact append_ne_of_not_starts _ _ _ (by decide))
    (by rw [hstrip]; exact append_ne_of_not_starts _ _ _ (by decide))
    (by rw [hstrip]; exact h4)
    (by rw [hstrip]; exact h5) hcur]
  rw [hstrip]
  rw [strDropN_append PAYLOAD_TAG (" " ++ l)]
  rw [pyStrip_space_lead l c0 hc0 hc0ns cp hcp hcpns]

theorem setFile_eq_map_of_any (d : List (String × List Nat)) (p : String) (b : List Nat)
    (h : (d.any fun e => e.1 == p) = true) :
    setFile d p b = d.map (fun e => if e.1 == p then (p, b) else e) := by
  unfold setFile
  rw [if_pos h]

theorem setFile_eq_append_of_not (d : List (String × List Nat)) (p : String) (b : List Nat)
    (h : ¬(d.any fun e => e.1 == p) = true) :
    setFile d p b = d ++ [(p, b)] := by
  unfold setFile
  rw [if_neg h]

theorem setFile_any_self (d : List (String × List Nat)) (p : String) (b : List Nat) :
    ((setFile d p b).any fun e => e.1 == p) = true := by
  by_cases ha : (d.any fun e => e.1 == p) = true
  · rw [setFile_eq_map_of_any d p b ha]
    rw [List.any_eq_true] at ha ⊢
    obtain ⟨e, he, hep⟩ := ha
    refine ⟨(p, b), List.mem_map.mpr ⟨e, he, ?_⟩, by simp⟩
    rw [if_pos hep]
  · rw [setFile_eq_append_of_not d p b ha]
    rw [List.any_eq_true]
    exact ⟨(p, b), by simp⟩

/-- Overwriting an overwrite is a single overwrite. -/
theorem setFile_setFile (d : List (String × List Nat)) (p : String) (x y : List Nat) :
    setFile (setFile d p x) p y = setFile d p y := by
  by_cases ha : (d.any fun e => e.1 == p) = true
  · rw [setFile_eq_map_of_any _ p y (setFile_any_self d p x),
      setFile_eq_map_of_any d p x ha, setFile_eq_map_of_any d p y ha, List.map_map]
    apply List.map_congr_left
    intro e _
    by_cases hep : (e.1 == p) = true
    · simp only [Function.comp_apply, if_pos hep]
      simp
    · simp only [Function.comp_apply, if_neg hep]
  · rw [setFile_eq_append_of_not d p x ha,
      setFile_eq_map_of_any _ p y (by
        rw [List.any_eq_true]
        exact ⟨(p, x), by simp⟩),
      setFile_eq_append_of_not d p y ha]
    rw [List.map_append]
    congr 1
    · have h1 : ∀ e ∈ d, (if e.1 == p then (p, y) else e) = e := by
        intro e he
        exact if_neg (fun hep => ha (List.any_eq_true.mpr ⟨e, he, hep⟩))
      calc d.map (fun e => if e.1 == p then (p, y) else e)
          = d.map id := List.map_congr_left (fun e he => h1 e he)
        _ = d := List.map_id d
    · simp

/-- Running a whole block of payload lines appends the concatenation of
the decoded chunks to the open file and counts the bytes. -/
theorem unpackLines_payloads (sha : List Nat → String) (sk : Bool) (target : String)
    (p : String) (d0 : List (String × List Nat)) :
    ∀ (ls : List String) (st : DecodeSt) (acc payload : List Nat),
    st.current = some p → st.disk = setFile d0 p acc →
    (∀ l ∈ ls, l.data ≠ [] ∧ ∀ c ∈ l.data, isPySpace c = false) →
    decodeLinesConcat ls = some payload →
    unpackLines sha sk target st (ls.map (fun l => PAYLOAD_TAG ++ (" " ++ l)))
      = ({ st with disk := setFile d0 p (acc ++ payload),
                   actual_size := st.actual_size + payload.length }, none)
  | [], st, acc, payload, hcur, hdisk, _, hdec => by
    simp only [decodeLinesConcat] at hdec
    cases hdec
    simp only [List.map_nil, unpackLines, List.append_nil, List.length_nil, Nat.add_zero]
    rw [← hdisk]
  | l :: rest, st, acc, payload, hcur, hdisk, hws, hdec => by
    obtain ⟨hlne, hlws⟩ := hws l (List.mem_cons_self l rest)
    simp only [decodeLinesConcat] at hdec
    cases hchunk : b64DecodeChars l.data with
    | none =>
      rw [hchunk] at hdec
      simp at hdec
    | some chunk =>
      rw [hchunk] at hdec
      cases hrest : decodeLinesConcat rest with
      | none =>
        rw [hrest] at hdec
        simp at hdec
      | some prest =>
        rw [hrest] at hdec
        simp only [] at hdec
        cases hdec
        simp only [List.map_cons, unpackLines]
        rw [unpackLine_payload sha sk target st p l hcur hlne hlws, hchunk]
        simp only []
        rw [show (getFile st.disk p).getD [] = acc from by
          rw [hdisk, getFile_setFile_self]
          rfl]
        rw [show setFile st.disk p (acc ++ chunk) = setFile d0 p (acc ++ chunk) from by
          rw [hdisk, setFile_setFile]]
        rw [unpackLines_payloads sha sk target p d0 rest
          { st with disk := setFile d0 p (acc ++ chunk),
                    actual_size := st.actual_size + chunk.length }
          (acc ++ chunk) prest hcur rfl
          (fun l2 hl2 => hws l2 (List.mem_cons_of_mem l hl2)) hrest]
        simp [List.append_assoc, Nat.add_assoc]

/-- Line characters all come from the wrapped text. -/
theorem wrapLines_chars_subset (w : Nat) : ∀ (s : List Char), ∀ l ∈ wrapLines w s,
    ∀ c ∈ l.data, c ∈ s
  | [] => by rw [wrapLines_nil]; simp
  | c0 :: rest => by
    have ih := wrapLines_chars_subset w (List.drop (w - 1) rest)
    rw [wrapLines_cons]
    intro l hl c hc
    rcases List.mem_cons.mp hl with h | h
    · subst h
      exact List.take_subset _ _ hc
    · exact List.mem_cons_of_mem c0 (List.drop_subset _ _ (ih l h c hc))
termination_by s => s.length
decreasing_by simp [List.length_drop]; omega

/-- Wrapped lines are never empty (`w ≥ 1`). -/
theorem wrapLines_ne_empty (w : Nat) (hw : 1 ≤ w) : ∀ (s : List Char), ∀ l ∈ wrapLines w s,
    l.data ≠ []
  | [] => by rw [wrapLines_nil]; simp
  | c0 :: rest => by
    have ih := wrapLines_ne_empty w hw (List.drop (w - 1) rest)
    rw [wrapLines_cons]
    intro l hl
    rcases List.mem_cons.mp hl with h | h
    · subst h
      obtain ⟨w', rfl⟩ : ∃ w', w = w' + 1 := ⟨w - 1, by omega⟩
      rw [show (String.mk (List.take (w' + 1) (c0 :: rest))).data
          = List.take (w' + 1) (c0 :: rest) from rfl, List.take_succ_cons]
      simp
    · exact ih l h
termination_by s => s.length
decreasing_by simp [List.length_drop]; omega

theorem b64StreamStep_mem (w : Nat) (st : List String × List Nat) (chunk : List Nat)
    (l : String) (hl : l ∈ (b64StreamStep w st chunk).1) :
    l ∈ st.1 ∨ ∃ bs, l ∈ wrapLines w (b64EncodeChars bs) := by
  unfold b64StreamStep at hl
  simp only [] at hl
  by_cases h : ((st.2 ++ chunk).length / 3 * 3) = 0
  · rw [if_pos h] at hl
    exact .inl hl
  · rw [if_neg h] at hl
    rcases List.mem_append.mp hl with h2 | h2
    · exact .inl h2
    · exact .inr ⟨_, h2⟩

theorem b64Stream_foldl_mem (w : Nat) : ∀ (src : List (List Nat)) (st : List String × List Nat)
    (l : String), l ∈ (src.foldl (b64StreamStep w) st).1 →
    l ∈ st.1 ∨ ∃ bs, l ∈ wrapLines w (b64EncodeChars bs)
  | [], _, _, hl => .inl hl
  | c :: rest, st, l, hl => by
    rcases b64Stream_foldl_mem w rest (b64StreamStep w st c) l hl with h | h
    · exact b64StreamStep_mem w st c l h
    · exact .inr h

/-- Every emitted line is a wrapped slice of some base64 encoding. -/
theorem b64_encode_stream_mem (src : List (List Nat)) (w : Nat) (l : String)
    (hl : l ∈ b64_encode_stream src w) : ∃ bs, l ∈ wrapLines w (b64EncodeChars bs) := by
  unfold b64_encode_stream at hl
  simp only [] at hl
  by_cases h : (src.foldl (b64StreamStep w) ([], [])).2 = []
  · rw [if_pos h] at hl
    rcases b64Stream_foldl_mem w src ([], []) l hl with h2 | h2
    · simp at h2
    · exact h2
  · rw [if_neg h] at hl
    rcases List.mem_append.mp hl with h2 | h2
    · rcases b64Stream_foldl_mem w src ([], []) l h2 with h3 | h3
      · simp at h3
      · exact h3
    · exact ⟨_, h2⟩

/-- Payload text lines are nonempty and whitespace-free. -/
theorem b64_encode_stream_line_ok (src : List (List Nat)) (l : String)
    (hl : l ∈ b64_encode_stream src 76) :
    l.data ≠ [] ∧ ∀ c ∈ l.data, isPySpace c = false := by
  obtain ⟨bs, hbs⟩ := b64_encode_stream_mem src 76 l hl
  exact ⟨wrapLines_ne_empty 76 (by omega) _ l hbs,
    fun c hc => b64EncodeChars_no_space bs c (wrapLines_chars_subset 76 _ l hbs c hc)⟩

/-- One complete record block — begin marker, file-info header, payload
lines, size/checksum trailer, end marker — starting with no open file:
it writes the decoded payload to the resolved output path, bumps the
record count, and leaves the trailer's declarations in the state. -/
theorem unpackLines_record (sha : List Nat → String) (sk : Bool) (target : String)
    (st0 : DecodeSt) (hcur : st0.current = none)
    (rid rel full : String)
    (hrid_ne : rid.data ≠ []) (hrid : ∀ c ∈ rid.data, isPySpace c = false)
    (hrel_ne : rel.data ≠ []) (hrel : ∀ c ∈ rel.data, isPySpace c = false)
    (hfull : ∀ c ∈ full.data, isPySpace c = false)
    (ls : List String) (payload : List Nat)
    (hls : ∀ l ∈ ls, l.data ≠ [] ∧ ∀ c ∈ l.data, isPySpace c = false)
    (hdec : decodeLinesConcat ls = some payload)
    (hsne : (sha payload).data ≠ [])
    (hsws : ∀ c ∈ (sha payload).data, isPySpace c = false) :
    unpackLines sha sk target st0
        (RECORD_BEGIN_LINE
          :: (HEADER_TAG ++ (" " ++ ("root_id=" ++ (rid ++ (" rel=" ++ (rel ++
               (" src_full_posix=" ++ (full ++ " encoding=b64"))))))))
          :: (ls.map (fun l => PAYLOAD_TAG ++ (" " ++ l))
              ++ [HEADER_TAG ++ (" " ++ ("size=" ++ (String.mk (natChars payload.length) ++
                    (" sha256=" ++ sha payload)))),
                  RECORD_END_LINE]))
      = ({ st0 with
            file_count := st0.file_count + 1,
            current := none,
            expected_sha := some (sha payload),
            expected_size := payload.length,
            actual_size := payload.length,
            disk := setFile st0.disk (pathlibJoin (pathlibJoin target
              (sanitize_root (mapGet st0.root_map rid ("unknown_" ++ rid)))) rel) payload },
         none) := by
  simp only [unpackLines]
  rw [unpackLine_begin_clean sha sk target st0 hcur]
  simp only []
  rw [unpackLine_header_info sha sk target st0 rid rel full hrid_ne hrid hrel_ne hrel hfull]
  simp only []
  rw [unpackLines_append sha sk target
    (ls.map (fun l => PAYLOAD_TAG ++ (" " ++ l)))
    [HEADER_TAG ++ (" " ++ ("size=" ++ (String.mk (natChars payload.length) ++
       (" sha256=" ++ sha payload)))), RECORD_END_LINE] _]
  rw [unpackLines_payloads sha sk target
    (pathlibJoin (pathlibJoin target
      (sanitize_root (mapGet st0.root_map rid ("unknown_" ++ rid)))) rel) st0.disk
    ls _ [] payload rfl rfl hls hdec]
  simp only [List.nil_append]
  rw [unpackLines]
  rw [unpackLine_header_size sha sk target _ payload.length (sha payload) hsne hsws]
  simp only []
  rw [unpackLines]
  rw [unpackLine_end_eq]
  rw [show close_current_file sha sk
      { st0 with
          current := some (pathlibJoin (pathlibJoin target
            (sanitize_root (mapGet st0.root_map rid ("unknown_" ++ rid)))) rel),
          actual_size := 0 + payload.length,
          disk := setFile st0.disk (pathlibJoin (pathlibJoin target
            (sanitize_root (mapGet st0.root_map rid ("unknown_" ++ rid)))) rel) payload,
          expected_sha := some (sha payload),
          expected_size := payload.length }
      = .ok { st0 with
          current := none,
          actual_size := 0 + payload.length,
          disk := setFile st0.disk (pathlibJoin (pathlibJoin target
            (sanitize_root (mapGet st0.root_map rid ("unknown_" ++ rid)))) rel) payload,
          expected_sha := some (sha payload),
          expected_size := payload.length } from by
    unfold close_current_file
    simp only [getFile_setFile_self, Option.getD_some, bne_self_eq_false, Bool.false_and,
      Bool.and_eq_true, Bool.false_eq_true, if_false, reduceIte]
    rw [if_neg (show ¬((payload.length != 0 + payload.length) = true ∧ (!sk) = true) from by
      simp)]
    simp]
  simp only []
  rw [unpackLines]
  simp only [Nat.zero_add]

theorem mapGet_of_not_mem (m : List (String × String)) (k d : String)
    (h : ∀ p ∈ m, (p.1 == k) = false) : mapGet m k d = d := by
  unfold mapGet
  rw [List.find?_eq_none.mpr (fun p hp => by simp [h p (List.mem_reverse.mp hp)])]
  rfl

/-- A record block with its trailing size/checksum header missing (begin
marker, file-info header, payload lines, nothing else): the payload is
decoded onto disk, the file stays open, and the declared checksum/size
fields keep whatever values they had before the record. -/
theorem unpackLines_record_open (sha : List Nat → String) (sk : Bool) (target : String)
    (st0 : DecodeSt) (hcur : st0.current = none)
    (rid rel full : String)
    (hrid_ne : rid.data ≠ []) (hrid : ∀ c ∈ rid.data, isPySpace c = false)
    (hrel_ne : rel.data ≠ []) (hrel : ∀ c ∈ rel.data, isPySpace c = false)
    (hfull : ∀ c ∈ full.data, isPySpace c = false)
    (ls : List String) (payload : List Nat)
    (hls : ∀ l ∈ ls, l.data ≠ [] ∧ ∀ c ∈ l.data, isPySpace c = false)
    (hdec : decodeLinesConcat ls = some payload) :
    unpackLines sha sk target st0
        (RECORD_BEGIN_LINE
          :: (HEADER_TAG ++ (" " ++ ("root_id=" ++ (rid ++ (" rel=" ++ (rel ++
               (" src_full_posix=" ++ (full ++ " encoding=b64"))))))))
          :: ls.map (fun l => PAYLOAD_TAG ++ (" " ++ l)))
      = ({ st0 with
            current := some (pathlibJoin (pathlibJoin target
              (sanitize_root (mapGet st0.root_map rid ("unknown_" ++ rid)))) rel),
            actual_size := payload.length,
            disk := setFile st0.disk (pathlibJoin (pathlibJoin target
              (sanitize_root (mapGet st0.root_map rid ("unknown_" ++ rid)))) rel) payload },
         none) := by
  simp only [unpackLines]
  rw [unpackLine_begin_clean sha sk target st0 hcur]
  simp only []
  rw [unpackLine_header_info sha sk target st0 rid rel full hrid_ne hrid hrel_ne hrel hfull]
  simp only []
  rw [unpackLines_payloads sha sk target
    (pathlibJoin (pathlibJoin target
      (sanitize_root (mapGet st0.root_map rid ("unknown_" ++ rid)))) rel) st0.disk
    ls _ [] payload rfl rfl hls hdec]
  simp only [List.nil_append, Nat.zero_add]

/-- C10: the decoder never raises on an unrecognized or malformed line:
any line whose stripped text is nonempty, is not a meta line, is not the
record begin/end marker, is not a header line, and is not a payload line
with a file open (in particular a payload line arriving before any
file-info header, when no output file is open) is silently skipped and
the decode state is returned unchanged, in both modes. -/
theorem claim_C10_unknown_line_skipped (sha : List Nat → String) (sk : Bool) (target : String)
    (st : DecodeSt) (raw : String)
    (h0 : pyStrip raw ≠ "")
    (h1 : strStarts (pyStrip raw) META_TAG = false)
    (h2 : pyStrip raw ≠ RECORD_BEGIN_LINE)
    (h3 : pyStrip raw ≠ RECORD_END_LINE)
    (h4 : strStarts (pyStrip raw) HEADER_TAG = false)
    (h5 : strStarts (pyStrip raw) PAYLOAD_TAG = false ∨ st.current = none) :
    unpackLine sha sk target st raw = .ok st :=
  unpackLine_fallthrough sha sk target st raw h0 h1 h2 h3 h4 h5

/-- Witness for C10: a malformed garbage line, and a payload line
arriving before any file is open, are both skipped in strict mode. -/
theorem claim_C10_unknown_line_skipped_witness :
    unpackLine (fun _ => "") false "/out" ⟨[], 0, none, none, 0, 0, []⟩ "garbage here"
      = .ok ⟨[], 0, none, none, 0, 0, []⟩
    ∧ unpackLine (fun _ => "") false "/out" ⟨[], 0, none, none, 0, 0, []⟩
        (PAYLOAD_TAG ++ " aGk=")
      = .ok ⟨[], 0, none, none, 0, 0, []⟩ :=
  ⟨claim_C10_unknown_line_skipped (fun _ => "") false "/out" ⟨[], 0, none, none, 0, 0, []⟩
      "garbage here" (by decide) (by decide) (by decide) (by decide) (by decide)
      (.inl (by decide)),
   claim_C10_unknown_line_skipped (fun _ => "") false "/out" ⟨[], 0, none, none, 0, 0, []⟩
      (PAYLOAD_TAG ++ " aGk=") (by decide) (by decide) (by decide) (by decide) (by decide)
      (.inr rfl)⟩

/-- C7 (amended): a record header whose `root_id` was never declared in
the registry does NOT abort in either mode: both the strict and the
lenient decoder resolve the record with the placeholder root name
`unknown_<id>` and continue — the outcome is identical in the two
modes. -/
theorem claim_C7_unknown_root_placeholder (sha : List Nat → String) (target : String)
    (st : DecodeSt) (rid rel full : String)
    (hunk : ∀ p ∈ st.root_map, (p.1 == rid) = false)
    (hrid_ne : rid.data ≠ []) (hrid : ∀ c ∈ rid.data, isPySpace c = false)
    (hrel_ne : rel.data ≠ []) (hrel : ∀ c ∈ rel.data, isPySpace c = false)
    (hfull : ∀ c ∈ full.data, isPySpace c = false) :
    unpackLine sha false target st
        (HEADER_TAG ++ (" " ++ ("root_id=" ++ (rid ++ (" rel=" ++ (rel ++
          (" src_full_posix=" ++ (full ++ " encoding=b64"))))))))
      = .ok { st with
          current := some (pathlibJoin (pathlibJoin target
            (sanitize_root ("unknown_" ++ rid))) rel),
          actual_size := 0,
          disk := setFile st.disk (pathlibJoin (pathlibJoin target
            (sanitize_root ("unknown_" ++ rid))) rel) [] }
    ∧ unpackLine sha true target st
        (HEADER_TAG ++ (" " ++ ("root_id=" ++ (rid ++ (" rel=" ++ (rel ++
          (" src_full_posix=" ++ (full ++ " encoding=b64"))))))))
      = .ok { st with
          current := some (pathlibJoin (pathlibJoin target
            (sanitize_root ("unknown_" ++ rid))) rel),
          actual_size := 0,
          disk := setFile st.disk (pathlibJoin (pathlibJoin target
            (sanitize_root ("unknown_" ++ rid))) rel) [] } := by
  have hmg : mapGet st.root_map rid ("unknown_" ++ rid) = "unknown_" ++ rid :=
    mapGet_of_not_mem st.root_map rid ("unknown_" ++ rid) hunk
  constructor
  · rw [unpackLine_header_info sha false target st rid rel full hrid_ne hrid hrel_ne hrel hfull,
      hmg]
  · rw [unpackLine_header_info sha true target st rid rel full hrid_ne hrid hrel_ne hrel hfull,
      hmg]

/-- Witness for C7 (amended): a header with undeclared id `zz`, against
an empty registry, opens `target/unknown_zz/f` in both modes. -/
theorem claim_C7_unknown_root_placeholder_witness :
    unpackLine (fun _ => "") false "/t" ⟨[], 0, none, none, 0, 0, []⟩
        (HEADER_TAG ++ (" " ++ ("root_id=" ++ ("zz" ++ (" rel=" ++ ("f" ++
          (" src_full_posix=" ++ ("/r/f" ++ " encoding=b64"))))))))
      = .ok { (⟨[], 0, none, none, 0, 0, []⟩ : DecodeSt) with
          current := some (pathlibJoin (pathlibJoin "/t" (sanitize_root ("unknown_" ++ "zz"))) "f"),
          actual_size := 0,
          disk := setFile [] (pathlibJoin (pathlibJoin "/t" (sanitize_root ("unknown_" ++ "zz"))) "f") [] }
    ∧ unpackLine (fun _ => "") true "/t" ⟨[], 0, none, none, 0, 0, []⟩
        (HEADER_TAG ++ (" " ++ ("root_id=" ++ ("zz" ++ (" rel=" ++ ("f" ++
          (" src_full_posix=" ++ ("/r/f" ++ " encoding=b64"))))))))
      = .ok { (⟨[], 0, none, none, 0, 0, []⟩ : DecodeSt) with
          current := some (pathlibJoin (pathlibJoin "/t" (sanitize_root ("unknown_" ++ "zz"))) "f"),
          actual_size := 0,
          disk := setFile [] (pathlibJoin (pathlibJoin "/t" (sanitize_root ("unknown_" ++ "zz"))) "f") [] } :=
  claim_C7_unknown_root_placeholder (fun _ => "") "/t" ⟨[], 0, none, none, 0, 0, []⟩
    "zz" "f" "/r/f" (by simp) (by decide) (by decide) (by decide) (by decide) (by decide)

/-- A demo checksum oracle for the C7 counterexample archive. -/
def shaC7 : List Nat → String := fun _ => "h7"

/-- A well-formed archive whose single record references the root id
`zz`, never declared in the registry. -/
def linesC7 : List String :=
  [OPEN_DELIM, META_TAG ++ " version=2",
   RECORD_BEGIN_LINE,
   HEADER_TAG ++ " root_id=zz rel=f.txt src_full_posix=/r/f.txt encoding=b64",
   PAYLOAD_TAG ++ " aGk=",
   HEADER_TAG ++ " size=2 sha256=h7",
   RECORD_END_LINE, CLOSE_DELIM]

/-- Counterexample to C7 as stated: in strict mode (`skip_errors =
False`, the default), decoding a record with an UNDECLARED root id does
NOT abort and does not fail like a checksum mismatch: the decode
finishes with no error, counts the record, and writes the file under the
placeholder directory `unknown_zz` — the same recovery the claim
reserves for lenient mode. -/
theorem claim_C7_counterexample :
    unpack_from_backup shaC7 false "/t" linesC7
      = (⟨[], 1, none, some "h7", 2, 2, [("/t/unknown_zz/f.txt", [104, 105])]⟩, none) := by
  decide

/-- C8: the declared size/checksum variables are never reset when a
record is closed; a record lacking its trailing size/sha256 header line
is verified (in strict mode, at its end marker) against the PREVIOUS
record's declarations, and when no declaration was ever made the check
is against size 0 with the checksum check skipped — a nonempty payload
then fails with the SIZE error, never the checksum error. -/
theorem claim_C8_stale_declarations (sha : List Nat → String) (target : String)
    (st0 : DecodeSt) (hcur : st0.current = none)
    (rid rel full : String)
    (hrid_ne : rid.data ≠ []) (hrid : ∀ c ∈ rid.data, isPySpace c = false)
    (hrel_ne : rel.data ≠ []) (hrel : ∀ c ∈ rel.data, isPySpace c = false)
    (hfull : ∀ c ∈ full.data, isPySpace c = false)
    (ls : List String) (payload : List Nat)
    (hls : ∀ l ∈ ls, l.data ≠ [] ∧ ∀ c ∈ l.data, isPySpace c = false)
    (hdec : decodeLinesConcat ls = some payload) :
    (∀ (sk : Bool) (st st' : DecodeSt), close_current_file sha sk st = .ok st' →
        st'.expected_sha = st.expected_sha ∧ st'.expected_size = st.expected_size)
    ∧ (st0.expected_sha = none → st0.expected_size = 0 → payload ≠ [] →
        unpackLines sha false target st0
            ((RECORD_BEGIN_LINE
              :: (HEADER_TAG ++ (" " ++ ("root_id=" ++ (rid ++ (" rel=" ++ (rel ++
                   (" src_full_posix=" ++ (full ++ " encoding=b64"))))))))
              :: ls.map (fun l => PAYLOAD_TAG ++ (" " ++ l)))
             ++ [RECORD_END_LINE])
          = ({ st0 with
                current := some (pathlibJoin (pathlibJoin target
                  (sanitize_root (mapGet st0.root_map rid ("unknown_" ++ rid)))) rel),
                actual_size := payload.length,
                disk := setFile st0.disk (pathlibJoin (pathlibJoin target
                  (sanitize_root (mapGet st0.root_map rid ("unknown_" ++ rid)))) rel) payload },
             some (.backupError "Size mismatch for file in backup!")))
    ∧ (∀ hprev : String, st0.expected_sha = some hprev → hprev ≠ "" → sha payload ≠ hprev →
        unpackLines sha false target st0
            ((RECORD_BEGIN_LINE
              :: (HEADER_TAG ++ (" " ++ ("root_id=" ++ (rid ++ (" rel=" ++ (rel ++
                   (" src_full_posix=" ++ (full ++ " encoding=b64"))))))))
              :: ls.map (fun l => PAYLOAD_TAG ++ (" " ++ l)))
             ++ [RECORD_END_LINE])
          = ({ st0 with
                current := some (pathlibJoin (pathlibJoin target
                  (sanitize_root (mapGet st0.root_map rid ("unknown_" ++ rid)))) rel),
                actual_size := payload.length,
                disk := setFile st0.disk (pathlibJoin (pathlibJoin target
                  (sanitize_root (mapGet st0.root_map rid ("unknown_" ++ rid)))) rel) payload },
             some (.backupError "Checksum mismatch for file in backup!"))) := by
  refine ⟨?close_keeps, ?first_record, ?prev_record⟩
  case close_keeps =>
    intro sk st st' hc
    unfold close_current_file at hc
    cases hcs : st.current with
    | none =>
      rw [hcs] at hc
      cases hc
      exact ⟨rfl, rfl⟩
    | some p =>
      rw [hcs] at hc
      simp only [] at hc
      split at hc
      · cases hc
      · split at hc
        · cases hc
        · cases hc
          exact ⟨rfl, rfl⟩
  case first_record =>
    intro hsha hsize hpne
    rw [unpackLines_append]
    rw [unpackLines_record_open sha false target st0 hcur rid rel full hrid_ne hrid hrel_ne
      hrel hfull ls payload hls hdec]
    simp only []
    rw [unpackLines, unpackLine_end_eq]
    rw [show close_current_file sha false
        { st0 with
            current := some (pathlibJoin (pathlibJoin target
              (sanitize_root (mapGet st0.root_map rid ("unknown_" ++ rid)))) rel),
            actual_size := payload.length,
            disk := setFile st0.disk (pathlibJoin (pathlibJoin target
              (sanitize_root (mapGet st0.root_map rid ("unknown_" ++ rid)))) rel) payload }
        = .error (.backupError "Size mismatch for file in backup!") from by
      unfold close_current_file
      simp only [getFile_setFile_self, Option.getD_some]
      rw [hsha]
      simp only [Bool.false_and, Bool.false_eq_true, if_false, reduceIte]
      rw [hsize]
      rw [if_pos (show (0 != payload.length && !false) = true from by
        simp only [Bool.not_false, Bool.and_true, bne_iff_ne, ne_eq]
        exact fun hh => hpne (List.length_eq_zero.mp hh.symm))]]
  case prev_record =>
    intro hprev hsha hne hmis
    rw [unpackLines_append]
    rw [unpackLines_record_open sha false target st0 hcur rid rel full hrid_ne hrid hrel_ne
      hrel hfull ls payload hls hdec]
    simp only []
    rw [unpackLines, unpackLine_end_eq]
    rw [show close_current_file sha false
        { st0 with
            current := some (pathlibJoin (pathlibJoin target
              (sanitize_root (mapGet st0.root_map rid ("unknown_" ++ rid)))) rel),
            actual_size := payload.length,
            disk := setFile st0.disk (pathlibJoin (pathlibJoin target
              (sanitize_root (mapGet st0.root_map rid ("unknown_" ++ rid)))) rel) payload }
        = .error (.backupError "Checksum mismatch for file in backup!") from by
      unfold close_current_file
      simp only [getFile_setFile_self, Option.getD_some]
      rw [hsha]
      simp only []
      rw [if_pos (show ((hprev != "" && sha payload != hprev) && !false) = true from by
        simp only [Bool.not_false, Bool.and_true, Bool.and_eq_true, bne_iff_ne, ne_eq]
        exact ⟨hne, hmis⟩)]]

/-- Witness for C8: a first record with no trailer, decoding two bytes,
fails at its end marker with the SIZE error (checked against size 0,
checksum skipped). -/
theorem claim_C8_stale_declarations_witness :
    unpackLines (fun _ => "S") false "/t" ⟨[], 0, none, none, 0, 0, []⟩
        ((RECORD_BEGIN_LINE
          :: (HEADER_TAG ++ (" " ++ ("root_id=" ++ ("id1" ++ (" rel=" ++ ("f" ++
               (" src_full_posix=" ++ ("/r/f" ++ " encoding=b64"))))))))
          :: (["aGk="].map (fun l => PAYLOAD_TAG ++ (" " ++ l))))
         ++ [RECORD_END_LINE])
      = ({ (⟨[], 0, none, none, 0, 0, []⟩ : DecodeSt) with
            current := some (pathlibJoin (pathlibJoin "/t"
              (sanitize_root (mapGet [] "id1" ("unknown_" ++ "id1")))) "f"),
            actual_size := ([104, 105] : List Nat).length,
            disk := setFile [] (pathlibJoin (pathlibJoin "/t"
              (sanitize_root (mapGet [] "id1" ("unknown_" ++ "id1")))) "f") [104, 105] },
         some (.backupError "Size mismatch for file in backup!")) :=
  (claim_C8_stale_declarations (fun _ => "S") "/t" ⟨[], 0, none, none, 0, 0, []⟩ rfl
    "id1" "f" "/r/f" (by decide) (by decide) (by decide) (by decide) (by decide)
    ["aGk="] [104, 105] (by decide) (by decide)).2.1 rfl rfl (by decide)

/-- C3 (amended): when a record's declared checksum does not match the
checksum of its decoded bytes (an alphabet-preserving payload
corruption), strict mode fails the whole decode at the record's end
marker with the checksum `BackupError` — lines after the record are
never processed — while lenient mode logs and continues to the rest of
the archive with the record counted; in BOTH modes the mismatched output
file is left on disk with the corrupted bytes. -/
theorem claim_C3_checksum_mismatch (sha : List Nat → String) (target : String)
    (st0 : DecodeSt) (hcur : st0.current = none)
    (rid rel full : String)
    (hrid_ne : rid.data ≠ []) (hrid : ∀ c ∈ rid.data, isPySpace c = false)
    (hrel_ne : rel.data ≠ []) (hrel : ∀ c ∈ rel.data, isPySpace c = false)
    (hfull : ∀ c ∈ full.data, isPySpace c = false)
    (ls : List String) (payload : List Nat)
    (hls : ∀ l ∈ ls, l.data ≠ [] ∧ ∀ c ∈ l.data, isPySpace c = false)
    (hdec : decodeLinesConcat ls = some payload)
    (n : Nat) (shaStr : String)
    (hsne : shaStr.data ≠ []) (hsws : ∀ c ∈ shaStr.data, isPySpace c = false)
    (hne : shaStr ≠ "") (hmis : sha payload ≠ shaStr)
    (rest : List String) :
    (unpackLines sha false target st0
        (((RECORD_BEGIN_LINE
            :: (HEADER_TAG ++ (" " ++ ("root_id=" ++ (rid ++ (" rel=" ++ (rel ++
                 (" src_full_posix=" ++ (full ++ " encoding=b64"))))))))
            :: ls.map (fun l => PAYLOAD_TAG ++ (" " ++ l)))
          ++ [HEADER_TAG ++ (" " ++ ("size=" ++ (String.mk (natChars n) ++
                (" sha256=" ++ shaStr)))),
              RECORD_END_LINE]) ++ rest)
      = ({ st0 with
            current := some (pathlibJoin (pathlibJoin target
              (sanitize_root (mapGet st0.root_map rid ("unknown_" ++ rid)))) rel),
            actual_size := payload.length,
            disk := setFile st0.disk (pathlibJoin (pathlibJoin target
              (sanitize_root (mapGet st0.root_map rid ("unknown_" ++ rid)))) rel) payload,
            expected_sha := some shaStr,
            expected_size := n },
         some (.backupError "Checksum mismatch for file in backup!")))
    ∧ getFile (setFile st0.disk (pathlibJoin (pathlibJoin target
          (sanitize_root (mapGet st0.root_map rid ("unknown_" ++ rid)))) rel) payload)
        (pathlibJoin (pathlibJoin target
          (sanitize_root (mapGet st0.root_map rid ("unknown_" ++ rid)))) rel)
      = some payload
    ∧ (unpackLines sha true target st0
        (((RECORD_BEGIN_LINE
            :: (HEADER_TAG ++ (" " ++ ("root_id=" ++ (rid ++ (" rel=" ++ (rel ++
                 (" src_full_posix=" ++ (full ++ " encoding=b64"))))))))
            :: ls.map (fun l => PAYLOAD_TAG ++ (" " ++ l)))
          ++ [HEADER_TAG ++ (" " ++ ("size=" ++ (String.mk (natChars n) ++
                (" sha256=" ++ shaStr)))),
              RECORD_END_LINE]) ++ rest)
      = unpackLines sha true target
          { st0 with
              file_count := st0.file_count + 1,
              current := none,
              actual_size := payload.length,
              disk := setFile st0.disk (pathlibJoin (pathlibJoin target
                (sanitize_root (mapGet st0.root_map rid ("unknown_" ++ rid)))) rel) payload,
              expected_sha := some shaStr,
              expected_size := n } rest) := by
  refine ⟨?strict, getFile_setFile_self _ _ _, ?lenient⟩
  case strict =>
    rw [List.append_assoc, unpackLines_append]
    rw [unpackLines_record_open sha false target st0 hcur rid rel full hrid_ne hrid hrel_ne
      hrel hfull ls payload hls hdec]
    simp only [List.cons_append, List.nil_append]
    rw [unpackLines, unpackLine_header_size sha false target _ n shaStr hsne hsws]
    simp only []
    rw [unpackLines, unpackLine_end_eq]
    rw [show close_current_file sha false
        { st0 with
            current := some (pathlibJoin (pathlibJoin target
              (sanitize_root (mapGet st0.root_map rid ("unknown_" ++ rid)))) rel),
            actual_size := payload.length,
            disk := setFile st0.disk (pathlibJoin (pathlibJoin target
              (sanitize_root (mapGet st0.root_map rid ("unknown_" ++ rid)))) rel) payload,
            expected_sha := some shaStr,
            expected_size := n }
        = .error (.backupError "Checksum mismatch for file in backup!") from by
      unfold close_current_file
      simp only [getFile_setFile_self, Option.getD_some]
      have hb1 : (shaStr != "") = true := by
        simp only [bne_iff_ne, ne_eq]
        exact hne
      have hb2 : (sha payload != shaStr) = true := by
        simp only [bne_iff_ne, ne_eq]
        exact hmis
      rw [hb1, hb2]
      simp]
  case lenient =>
    rw [List.append_assoc, unpackLines_append]
    rw [unpackLines_record_open sha true target st0 hcur rid rel full hrid_ne hrid hrel_ne
      hrel hfull ls payload hls hdec]
    simp only [List.cons_append, List.nil_append]
    rw [unpackLines, unpackLine_header_size sha true target _ n shaStr hsne hsws]
    simp only []
    rw [unpackLines, unpackLine_end_eq]
    rw [show close_current_file sha true
        { st0 with
            current := some (pathlibJoin (pathlibJoin target
              (sanitize_root (mapGet st0.root_map rid ("unknown_" ++ rid)))) rel),
            actual_size := payload.length,
            disk := setFile st0.disk (pathlibJoin (pathlibJoin target
              (sanitize_root (mapGet st0.root_map rid ("unknown_" ++ rid)))) rel) payload,
            expected_sha := some shaStr,
            expected_size := n }
        = .ok { st0 with
            current := none,
            actual_size := payload.length,
            disk := setFile st0.disk (pathlibJoin (pathlibJoin target
              (sanitize_root (mapGet st0.root_map rid ("unknown_" ++ rid)))) rel) payload,
            expected_sha := some shaStr,
            expected_size := n } from by
      unfold close_current_file
      simp only [getFile_setFile_self, Option.getD_some]
      simp]

/-- Witness for C3 (amended): a record declaring checksum `Y` while the
decoded bytes hash to `X` aborts a strict decode at the end marker with
the checksum error, before any following line (here the closing
delimiter) is seen. -/
theorem claim_C3_checksum_mismatch_witness :
    unpackLines (fun _ => "X") false "/t" ⟨[], 0, none, none, 0, 0, []⟩
        (((RECORD_BEGIN_LINE
            :: (HEADER_TAG ++ (" " ++ ("root_id=" ++ ("id1" ++ (" rel=" ++ ("f" ++
                 (" src_full_posix=" ++ ("/r/f" ++ " encoding=b64"))))))))
            :: (["aGk="].map (fun l => PAYLOAD_TAG ++ (" " ++ l))))
          ++ [HEADER_TAG ++ (" " ++ ("size=" ++ (String.mk (natChars 2) ++
                (" sha256=" ++ "Y")))),
              RECORD_END_LINE]) ++ [CLOSE_DELIM])
      = ({ (⟨[], 0, none, none, 0, 0, []⟩ : DecodeSt) with
            current := some (pathlibJoin (pathlibJoin "/t"
              (sanitize_root (mapGet [] "id1" ("unknown_" ++ "id1")))) "f"),
            actual_size := ([104, 105] : List Nat).length,
            disk := setFile [] (pathlibJoin (pathlibJoin "/t"
              (sanitize_root (mapGet [] "id1" ("unknown_" ++ "id1")))) "f") [104, 105],
            expected_sha := some "Y",
            expected_size := 2 },
         some (.backupError "Checksum mismatch for file in backup!")) :=
  (claim_C3_checksum_mismatch (fun _ => "X") "/t" ⟨[], 0, none, none, 0, 0, []⟩ rfl
    "id1" "f" "/r/f" (by decide) (by decide) (by decide) (by decide) (by decide)
    ["aGk="] [104, 105] (by decide) (by decide) 2 "Y" (by decide) (by decide)
    (by decide) (by decide) [CLOSE_DELIM]).1

/-- Checksum oracle for the C3 counterexample archive (`s1` for the
first record's true bytes, `s2` otherwise). -/
def shaC3 : List Nat → String := fun bs => if bs = [104, 105] then "s1" else "s2"

/-- A two-record archive whose FIRST record has a single payload
character corrupted to `!` (not in the base64 alphabet); the second
record is intact. -/
def linesC3 : List String :=
  [OPEN_DELIM, META_TAG ++ " version=2",
   META_TAG ++ " root_id=aa root_posix=/r",
   RECORD_BEGIN_LINE,
   HEADER_TAG ++ " root_id=aa rel=f1 src_full_posix=/r/f1 encoding=b64",
   PAYLOAD_TAG ++ " aG!=",
   HEADER_TAG ++ " size=2 sha256=s1",
   RECORD_END_LINE,
   RECORD_BEGIN_LINE,
   HEADER_TAG ++ " root_id=aa rel=f2 src_full_posix=/r/f2 encoding=b64",
   PAYLOAD_TAG ++ " aGs=",
   HEADER_TAG ++ " size=2 sha256=s2",
   RECORD_END_LINE, CLOSE_DELIM]

/-- Counterexample to C3 as stated: corrupting ONE payload character of
a well-formed archive does not make lenient mode "skip only that record
and continue": the corrupted character leaves the base64 alphabet, so
`b64decode` raises `binascii.Error`, which the decoder's
`except (IOError, OSError)` clause does not catch — the LENIENT decode
dies on the first record and the intact second record (`/t/r/f2`) is
never written. -/
theorem claim_C3_counterexample :
    unpack_from_backup shaC3 true "/t" linesC3
      = (⟨[("aa", "/r")], 0, some "/t/r/f1", none, 0, 0, [("/t/r/f1", [])]⟩,
         some .binasciiError)
    ∧ getFile [("/t/r/f1", [])] "/t/r/f2" = none := by
  decide

/-- `as_posix` of a plain name (no separators, nonempty, not `.`) is the
name itself. -/
theorem to_posix_comp (c : String) (hne : c.data ≠ []) (hdot : c ≠ ".")
    (hsl : ∀ ch ∈ c.data, ¬ch = '/') : to_posix c = c := by
  have habs : strStarts c "/" = false := by
    cases hd : c.data with
    | nil => exact absurd hd hne
    | cons a t =>
      show ("/" : String).data.isPrefixOf c.data = false
      rw [hd, show ("/" : String).data = ['/'] from rfl]
      have ha : ('/' == a) = false := by
        simp only [beq_eq_false_iff_ne, ne_eq]
        exact fun hh => hsl a (hd ▸ List.mem_cons_self a t) hh.symm
      simp [List.isPrefixOf, ha]
  have hsplit : splitOnChars '/' [] c.data = [c.data] := splitOnChars_no_occ '/' [] c.data hsl
  have hcne : (c != "") = true := by
    simp only [bne_iff_ne, ne_eq]
    intro hh
    rw [hh] at hne
    exact hne rfl
  have hcdot : (c != ".") = true := by
    simp only [bne_iff_ne, ne_eq]
    exact hdot
  unfold to_posix pathComps
  rw [habs, hsplit]
  show renderPath (false, List.filter _ [String.mk c.data]) = c
  rw [show String.mk c.data = c from rfl]
  rw [show List.filter (fun x => x != "" && x != ".") [c] = [c] from by
    simp [List.filter, hcne, hcdot]]
  unfold renderPath
  simp only [List.isEmpty_cons, Bool.false_eq_true, if_false, reduceIte]
  show "" ++ joinComps [c] = c
  apply String.ext
  simp [String.data_append, joinComps]

/-- Decoding the streamed encoding of a file's chunks gives back its
bytes. -/
theorem stream_decode_bytes (bytes : List Nat) (hb : ∀ b ∈ bytes, b < 256) :
    decodeLinesConcat (b64_encode_stream (chunksOf CHUNK_SIZE bytes) 76) = some bytes := by
  rw [b64_stream_dlc (chunksOf CHUNK_SIZE bytes)
    (fun c hc b hbc => hb b (chunksOf_mem CHUNK_SIZE bytes c hc b hbc))]
  rw [chunksOf_flatten CHUNK_SIZE (by unfold CHUNK_SIZE; omega) bytes]

/-- The lines of one record, reassociated into the canonical shapes the
per-line decoding lemmas use. -/
theorem recordLines_eq (strHash : String → String) (sha : List Nat → String) (fs : FS)
    (root fp : String) :
    recordLines strHash sha fs root fp
      = RECORD_BEGIN_LINE
        :: (HEADER_TAG ++ (" " ++ ("root_id=" ++ (root_prefix_id strHash root ++ (" rel=" ++
             (to_posix (relative_under_root fs.realpath root fp) ++
              (" src_full_posix=" ++ (to_posix fp ++ " encoding=b64"))))))))
        :: ((b64_encode_stream (chunksOf CHUNK_SIZE (fs.fileBytes fp)) 76).map
              (fun l => PAYLOAD_TAG ++ (" " ++ l))
            ++ [HEADER_TAG ++ (" " ++ ("size=" ++ (String.mk (natChars (fs.fileBytes fp).length)
                  ++ (" sha256=" ++ sha (fs.fileBytes fp))))),
                RECORD_END_LINE]) := by
  have hinfo : HEADER_TAG ++ " root_id=" ++ root_prefix_id strHash root ++ " rel="
        ++ to_posix (relative_under_root fs.realpath root fp) ++ " src_full_posix="
        ++ to_posix fp ++ " encoding=b64"
      = HEADER_TAG ++ (" " ++ ("root_id=" ++ (root_prefix_id strHash root ++ (" rel=" ++
          (to_posix (relative_under_root fs.realpath root fp) ++
           (" src_full_posix=" ++ (to_posix fp ++ " encoding=b64"))))))) := by
    apply String.ext
    simp [String.data_append, List.append_assoc]
  have htr : HEADER_TAG ++ " size=" ++ String.mk (natChars (fs.fileBytes fp).length)
        ++ " sha256=" ++ sha (fs.fileBytes fp)
      = HEADER_TAG ++ (" " ++ ("size=" ++ (String.mk (natChars (fs.fileBytes fp).length)
          ++ (" sha256=" ++ sha (fs.fileBytes fp))))) := by
    apply String.ext
    simp [String.data_append, List.append_assoc]
  have hmap : (fun l => PAYLOAD_TAG ++ " " ++ l) = (fun l => PAYLOAD_TAG ++ (" " ++ l)) :=
    funext fun l => strApp_assoc _ _ _
  unfold recordLines
  simp only [List.cons_append, List.nil_append]
  rw [hinfo, htr, hmap]

/-- C9: when a file's resolved path does not lie under its root's
resolved path, `relative_under_root` falls back to the file's basename
(the file is not rejected), its record encodes with that basename as the
relative path, and decoding the record places the file at
`target / sanitized-root / basename` — directly under the sanitized
root directory. -/
theorem claim_C9_basename_fallback (fs : FS) (strHash : String → String)
    (sha : List Nat → String) (root fp : String)
    (hnot : ¬((pathComps (fs.realpath root)).1 = (pathComps (fs.realpath fp)).1
        ∧ (pathComps (fs.realpath root)).2.isPrefixOf (pathComps (fs.realpath fp)).2 = true))
    (hbn_ne : (pathName fp).data ≠ [])
    (hbn_ws : ∀ c ∈ (pathName fp).data, isPySpace c = false)
    (hbn_dot : pathName fp ≠ ".")
    (hbn_slash : ∀ ch ∈ (pathName fp).data, ¬ch = '/')
    (sk : Bool) (target : String) (st0 : DecodeSt) (hcur : st0.current = none)
    (hrid_ne : (root_prefix_id strHash root).data ≠ [])
    (hrid_ws : ∀ c ∈ (root_prefix_id strHash root).data, isPySpace c = false)
    (hfull_ws : ∀ c ∈ (to_posix fp).data, isPySpace c = false)
    (hbytes : ∀ b ∈ fs.fileBytes fp, b < 256)
    (hsne : (sha (fs.fileBytes fp)).data ≠ [])
    (hsws : ∀ c ∈ (sha (fs.fileBytes fp)).data, isPySpace c = false) :
    relative_under_root fs.realpath root fp = pathName fp
    ∧ unpackLines sha sk target st0 (recordLines strHash sha fs root fp)
      = ({ st0 with
            file_count := st0.file_count + 1,
            current := none,
            expected_sha := some (sha (fs.fileBytes fp)),
            expected_size := (fs.fileBytes fp).length,
            actual_size := (fs.fileBytes fp).length,
            disk := setFile st0.disk (pathlibJoin (pathlibJoin target
              (sanitize_root (mapGet st0.root_map (root_prefix_id strHash root)
                ("unknown_" ++ root_prefix_id strHash root)))) (pathName fp))
              (fs.fileBytes fp) },
         none) := by
  have hfall : relative_under_root fs.realpath root fp = pathName fp := by
    unfold relative_under_root
    simp only []
    rw [if_neg hnot]
  refine ⟨hfall, ?dec⟩
  case dec =>
    rw [recordLines_eq]
    rw [show to_posix (relative_under_root fs.realpath root fp) = pathName fp from by
      rw [hfall]
      exact to_posix_comp _ hbn_ne hbn_dot hbn_slash]
    rw [unpackLines_record sha sk target st0 hcur (root_prefix_id strHash root) (pathName fp)
      (to_posix fp) hrid_ne hrid_ws hbn_ne hbn_ws hfull_ws
      (b64_encode_stream (chunksOf CHUNK_SIZE (fs.fileBytes fp)) 76)
      (fs.fileBytes fp)
      (fun l hl => b64_encode_stream_line_ok _ l hl)
      (stream_decode_bytes _ hbytes) hsne hsws]

/-- Oracle for the C9 witness: `/x/g.txt` is a regular file that does
not live under the root `/r`. -/
def fsC9 : FS where
  listdir := fun p => if p = "/r" then .ok [] else .ok []
  isdir := fun p => p == "/r"
  isfile := fun p => p == "/x/g.txt"
  realpath := fun p => p
  fileBytes := fun _ => [104, 105]

/-- Witness for C9: `/x/g.txt` is outside `/r`, falls back to basename
`g.txt`, and its record decodes to `target/r/g.txt`. -/
theorem claim_C9_basename_fallback_witness :
    relative_under_root fsC9.realpath "/r" "/x/g.txt" = pathName "/x/g.txt"
    ∧ unpackLines (fun _ => "ss") false "/t" ⟨[("aa", "/r")], 0, none, none, 0, 0, []⟩
        (recordLines (fun _ => "aa") (fun _ => "ss") fsC9 "/r" "/x/g.txt")
      = ({ (⟨[("aa", "/r")], 0, none, none, 0, 0, []⟩ : DecodeSt) with
            file_count := (0 : Nat) + 1,
            current := none,
            expected_sha := some ((fun _ => "ss") (fsC9.fileBytes "/x/g.txt")),
            expected_size := (fsC9.fileBytes "/x/g.txt").length,
            actual_size := (fsC9.fileBytes "/x/g.txt").length,
            disk := setFile [] (pathlibJoin (pathlibJoin "/t"
              (sanitize_root (mapGet [("aa", "/r")] (root_prefix_id (fun _ => "aa") "/r")
                ("unknown_" ++ root_prefix_id (fun _ => "aa") "/r")))) (pathName "/x/g.txt"))
              (fsC9.fileBytes "/x/g.txt") },
         none) :=
  claim_C9_basename_fallback fsC9 (fun _ => "aa") (fun _ => "ss") "/r" "/x/g.txt"
    (by decide) (by decide) (by decide) (by decide) (by decide)
    false "/t" ⟨[("aa", "/r")], 0, none, none, 0, 0, []⟩ rfl
    (by decide) (by decide) (by decide) (by decide) (by decide) (by decide)

end BrainBridge
